import Mathlib

/-!
Verification development for the minesweeper repository.

The rules engine (src/core.rs) and the overlay engine (src/game/mod.rs) are embedded
shallowly: `Vec<Vec<T>>` grids become `List (List T)`, machine integers become `Nat`
(subtraction sites are guarded in the source except where noted), fallible code and
index panics become `Option`, and `rand::thread_rng` becomes an explicit stream of
draws passed as a function argument.
-/

set_option linter.unusedVariables false

/-! ## Grids: `Vec<Vec<T>>` with `Option`-valued indexing (a `none` read is a Rust index panic) -/

def gget (g : List (List α)) (x y : Nat) : Option α :=
  g[y]?.bind fun row => row[x]?

def gset (g : List (List α)) (x y : Nat) (a : α) : List (List α) :=
  match g, y with
  | [], _ => []
  | row :: rs, 0 => row.set x a :: rs
  | row :: rs, Nat.succ y => row :: gset rs x y a

def gmodify (g : List (List α)) (x y : Nat) (f : α → α) : List (List α) :=
  match g, y with
  | [], _ => []
  | row :: rs, 0 => row.modify f x :: rs
  | row :: rs, Nat.succ y => row :: gmodify rs x y f

/-- Rows-by-columns shape of a grid: `h` rows, each of width `w`. -/
def gridDims (g : List (List α)) (w h : Nat) : Prop :=
  g.length = h ∧ ∀ row ∈ g, row.length = w

def gcountP (p : α → Bool) (g : List (List α)) : Nat :=
  (g.map (List.countP p)).sum

/-! ## The rules engine, from src/core.rs -/

namespace Core

inductive GameState where
  | New
  | Playing
  | Won
  | Lost
deriving DecidableEq, Repr

inductive Cell where
  | Hidden
  | Mine
  | Clear (n : Nat)
deriving DecidableEq, Repr

structure OpenInfo where
  state : GameState
  cell : Cell
deriving DecidableEq, Repr

inductive OpenErr where
  | OutOfBounds
  | AlreadyOpen
  | GameOver
deriving DecidableEq, Repr

/-- Type of the injectable board generator, the `randomizer` field of `Game`:
`fn(u32, u32, u32, u32, u32) -> Vec<Vec<bool>>` with arguments
(width, height, num_mines, firstx, firsty). -/
def Randomizer : Type := Nat → Nat → Nat → Nat → Nat → List (List Bool)

structure Game where
  state : GameState
  width : Nat
  height : Nat
  num_mines : Nat
  randomizer : Randomizer
  clear_remaining : Nat
  mines : List (List Bool)
  opened : List (List Bool)
  neighbours : List (List Nat)

/-- One pass of default_randomizer's inner `for j` scan over the flat row-major board:
skip cells that already hold a mine, and place a mine at the r-th remaining free cell.
Returns `none` when nothing gets placed; the source's while-loop would then draw a fresh
index (spinning forever once no free cell is left), which is unreachable for draws inside
the `gen_range` bound. -/
def placeFree : Nat → List Bool → Option (List Bool)
  | _, [] => none
  | r, true :: g => (placeFree r g).map (true :: ·)
  | 0, false :: g => some (true :: g)
  | r + 1, false :: g => (placeFree r g).map (false :: ·)

/-- The `while mines_left > 0` loop of default_randomizer. `rng k b` is the k-th draw of
`rng.gen_range(0..b)`; the bound passed at each iteration is `spaces + mines_left`. -/
def placeMines (rng : Nat → Nat → Nat) (spaces : Nat) : Nat → Nat → List Bool → Option (List Bool)
  | _, 0, g => some g
  | k, ml + 1, g => (placeFree (rng k (spaces + (ml + 1))) g).bind (placeMines rng spaces (k + 1) ml)

/-- Regroup a flat row-major board of length `w * h` into its `Vec<Vec<bool>>` shape:
flat index j holds the cell (j % w, j / w), i.e. cell (x, y) sits at index y * w + x. -/
def toGrid (w : Nat) : Nat → List Bool → List (List Bool)
  | 0, _ => []
  | h + 1, l => l.take w :: toGrid w h (l.drop w)

/-- default_randomizer (src/core.rs): scratch-mark the safe cell, place `num_mines` mines
uniformly among the free cells, then clear the safe cell. `thread_rng` is modelled by the
explicit draw stream `rng`. -/
def default_randomizer (width height num_mines firstx firsty : Nat)
    (rng : Nat → Nat → Nat) : Option (List (List Bool)) :=
  let area := width * height
  let spaces := area - num_mines - 1
  let init := (List.replicate area false).set (firsty * width + firstx) true
  (placeMines rng spaces 0 num_mines init).map fun l =>
    toGrid width height (l.set (firsty * width + firstx) false)

/-- Total wrapper giving default_randomizer the `Randomizer` shape needed for the
`randomizer` field (the `none` case is the source's non-terminating loop). -/
def defaultR (rng : Nat → Nat → Nat) : Randomizer := fun w h m fx fy =>
  (default_randomizer w h m fx fy rng).getD []

/-- Game::new_with (src/core.rs); the two `panic!` validations become `none`. -/
def Game.new_with (width height num_mines : Nat) (randomizer : Randomizer) : Option Game :=
  if width < 1 ∨ height < 1 then none
  else if num_mines < 1 ∨ num_mines > width * height - 1 then none
  else some { state := .New, width := width, height := height, num_mines := num_mines,
              randomizer := randomizer, clear_remaining := 0,
              mines := [], opened := [], neighbours := [] }

/-- Game::new (src/core.rs) forwards its width and height arguments to new_with in
swapped order, exactly as the source does: `Self::new_with(height, width, ...)`. -/
def Game.new (width height num_mines : Nat) (rng : Nat → Nat → Nat) : Option Game :=
  Game.new_with height width num_mines (defaultR rng)

/-- Game::clear (src/core.rs): back to New with the grids dropped; `clear_remaining`
is left as is (it is recomputed at generation time). -/
def Game.clear (g : Game) : Game :=
  { g with state := .New, mines := [], opened := [], neighbours := [] }

/-- Game::reset (src/core.rs): overwrite the configuration (no validation happens
here in the source), then clear. -/
def Game.reset (g : Game) (width height num_mines : Nat) : Game :=
  Game.clear { g with height := height, width := width, num_mines := num_mines }

def Game.get_state (g : Game) : GameState := g.state

/-- Shared body of get_cell's `_` arm: disclose the true content of the cell. -/
def Game.revealCell (g : Game) (x y : Nat) : Option Cell :=
  (gget g.mines x y).bind fun m =>
    if m then some .Mine else (gget g.neighbours x y).map .Clear

/-- Game::get_cell (src/core.rs). While New the match returns Hidden before touching any
grid; in Playing the guard reads `opened[y][x]` (an out-of-bounds panic is `none`); the
fall-through arm reads the mine and neighbour grids. -/
def Game.get_cell (g : Game) (x y : Nat) : Option Cell :=
  match g.state with
  | .New => some .Hidden
  | .Playing =>
    (gget g.opened x y).bind fun o =>
      if o = false then some .Hidden else g.revealCell x y
  | _ => g.revealCell x y

/-- Coordinates (j, i) visited by the two inner `for` loops of calculate_neighbours for a
mine at (x, y): rows max(1,y)-1 to min(h,y+2) exclusive, columns likewise with x and w. -/
def mineBlock (w h x y : Nat) : List (Nat × Nat) :=
  (List.range' (max 1 y - 1) (min h (y + 2) - (max 1 y - 1))).flatMap fun j =>
    (List.range' (max 1 x - 1) (min w (x + 2) - (max 1 x - 1))).map fun i => (j, i)

/-- The `self.neighbours[j][i] += 1` updates performed for one mine at (x, y); every
visited (j, i) is inside the h-by-w grid, so the `gmodify` writes always land. -/
def bump (w h x y : Nat) (g : List (List Nat)) : List (List Nat) :=
  (mineBlock w h x y).foldl (fun g p => gmodify g p.2 p.1 (· + 1)) g

/-- Game::calculate_neighbours (src/core.rs), abstracted over its inputs: start from an
all-zero h-by-w grid and, scanning cells row-major, add one to the whole 3x3 block around
every mine — the mine's own cell included, since the loops never skip (x, y) itself.
Reading a mine cell outside the grid would panic in the source; that read is modelled as
a no-bump (the surrounding callers only pass w-by-h grids, where it cannot happen). -/
def calculate_neighbours (w h : Nat) (mines : List (List Bool)) : List (List Nat) :=
  (List.range h).foldl (fun g y =>
    (List.range w).foldl (fun g x =>
      if gget mines x y = some true then bump w h x y g else g) g)
    (List.replicate h (List.replicate w 0))

/-- Game::generate_board (src/core.rs). -/
def Game.generate_board (g : Game) (firstx firsty : Nat) : Game :=
  let mines := g.randomizer g.width g.height g.num_mines firstx firsty
  { g with mines := mines,
           opened := List.replicate g.height (List.replicate g.width false),
           neighbours := calculate_neighbours g.width g.height mines,
           clear_remaining := g.width * g.height - g.num_mines }

/-- The Playing-state body of Game::open (src/core.rs). The `self.clear_remaining -= 1`
is u32 arithmetic; it is reached only with `clear_remaining ≥ 1` on states whose counter
matches the board (the invariant proved below), so plain Nat subtraction is faithful. -/
def Game.openPlaying (g : Game) (x y : Nat) : Option (Game × Except OpenErr OpenInfo) :=
  (gget g.opened x y).bind fun o =>
    if o then some (g, .error .AlreadyOpen)
    else
      let g := { g with opened := gset g.opened x y true }
      (gget g.mines x y).bind fun m =>
        if m then
          some ({ g with state := .Lost }, .ok ⟨.Lost, .Mine⟩)
        else
          let g := { g with clear_remaining := g.clear_remaining - 1 }
          let g := if g.clear_remaining = 0 then { g with state := .Won } else g
          (gget g.neighbours x y).map fun n => (g, .ok ⟨g.state, .Clear n⟩)

/-- Game::open (src/core.rs). The bounds check comes before any state inspection. In the
New arm the source flips state to Playing, generates the board, and recursively calls
`self.open(x, y)`; that recursive call re-passes the bounds check and lands in the
Playing arm, so it is unfolded to `openPlaying` here. -/
def Game.openCell (g : Game) (x y : Nat) : Option (Game × Except OpenErr OpenInfo) :=
  if g.width ≤ x ∨ g.height ≤ y then some (g, .error .OutOfBounds)
  else match g.state with
    | .New => (Game.generate_board { g with state := .Playing } x y).openPlaying x y
    | .Playing => g.openPlaying x y
    | _ => some (g, .error .GameOver)

/-- dummy_randomizer from the tests in src/core.rs: its loop plants mines at the first
`num_mines` cells in row-major order (flat indices 0 to num_mines - 1) and ignores the
safe coordinate. -/
def dummy_randomizer : Randomizer := fun w h m _ _ =>
  toGrid w h (List.replicate m true ++ List.replicate (w * h - m) false)

/-- Concrete fixture: the value of `Game::new_with(3, 2, 2, dummy_randomizer)` spelled
out, used to instantiate universally quantified theorems below on a concrete input. -/
def Game.mkTest5 : Game :=
  { state := .New, width := 3, height := 2, num_mines := 2,
    randomizer := dummy_randomizer, clear_remaining := 0,
    mines := [], opened := [], neighbours := [] }

/-- Concrete fixture: the value of `Game::new_with(3, 1, 1, dummy_randomizer)` spelled
out. -/
def Game.mkTest8 : Game :=
  { state := .New, width := 3, height := 1, num_mines := 1,
    randomizer := dummy_randomizer, clear_remaining := 0,
    mines := [], opened := [], neighbours := [] }

end Core

def countTrue (l : List Bool) : Nat := l.countP (fun b => b)

def countFalse (l : List Bool) : Nat := l.countP (fun b => !b)

/-- Stated from the spec sentence of claim C4: the exact number of mines among the
up-to-8 cells at Chebyshev distance one from (x, y) of the w-by-h board, the cell
(x, y) itself not counted. -/
def neighborMineCount (w h x y : Nat) (mines : List (List Bool)) : Nat :=
  ((List.range h).map fun j => ((List.range w).map fun i =>
    if gget mines i j = some true ∧ (x ≤ i + 1 ∧ i ≤ x + 1 ∧ y ≤ j + 1 ∧ j ≤ y + 1)
        ∧ ¬(i = x ∧ j = y)
    then 1 else 0).sum).sum

/-- The quantity calculate_neighbours actually stores: mines in the whole 3-by-3 block
centered at (x, y), the center cell included. -/
def blockMineCount (w h x y : Nat) (mines : List (List Bool)) : Nat :=
  ((List.range h).map fun j => ((List.range w).map fun i =>
    if gget mines i j = some true ∧ (x ≤ i + 1 ∧ i ≤ x + 1 ∧ y ≤ j + 1 ∧ j ≤ y + 1)
    then 1 else 0).sum).sum


/-! ## The overlay engine, from src/game/mod.rs -/

/-- Modelled from the spec: `rules::Cell::is_clear` is declared in src/game/rules.rs,
which is absent from the snapshot. Per the spec's endgame reconciliation a flag over a
real mine stays a mine and a flag over a non-mine becomes FalseFlag, and in terminal
states get_cell returns only Mine or Clear(n); so is_clear holds exactly on Clear. -/
def Core.Cell.is_clear : Core.Cell → Bool
  | .Clear _ => true
  | _ => false

namespace Overlay

inductive Cell where
  | Hidden
  | Flag
  | Mine
  | FalseFlag
  | TrippedMine
  | Open (n : Nat)
deriving DecidableEq, Repr

/-- From<rules::Cell> for Cell (src/game/mod.rs). -/
def cellFrom : Core.Cell → Cell
  | .Hidden => .Hidden
  | .Mine => .Mine
  | .Clear n => .Open n

def Cell.isHidden : Cell → Bool
  | .Hidden => true
  | _ => false

/-- Elapsed-time tracker from src/game/timer.rs. `Instant` and `Duration` are real time
and not modellable in a shallow embedding; the structure keeps the one observable that
is, whether the `start` field holds a Some (the `is_running` flag). `start` zeroes the
accumulated excess and resumes; `stop` and `reset` leave the tracker not running. -/
structure Timer where
  running : Bool
deriving DecidableEq, Repr

def Timer.new : Timer := ⟨false⟩

def Timer.start (_ : Timer) : Timer := ⟨true⟩

def Timer.stop (_ : Timer) : Timer := ⟨false⟩

def Timer.reset (_ : Timer) : Timer := ⟨false⟩

def Timer.is_running (t : Timer) : Bool := t.running

structure CustomBoard where
  width : Nat
  height : Nat
  mines : Nat
deriving DecidableEq, Repr

/-- CustomBoard::new (src/game/mod.rs); the three validation panics become none. -/
def CustomBoard.new (width height mines : Nat) : Option CustomBoard :=
  if width < 1 ∨ height < 1 then none
  else if mines < 1 then none
  else if mines ≥ width * height then none
  else some ⟨width, height, mines⟩

inductive Difficulty where
  | Easy
  | Medium
  | Hard
  | Custom (board : CustomBoard)
deriving DecidableEq, Repr

def Difficulty.width : Difficulty → Nat
  | .Easy => 9
  | .Medium => 16
  | .Hard => 30
  | .Custom b => b.width

def Difficulty.height : Difficulty → Nat
  | .Easy => 9
  | .Medium => 16
  | .Hard => 16
  | .Custom b => b.height

def Difficulty.mines : Difficulty → Nat
  | .Easy => 10
  | .Medium => 40
  | .Hard => 99
  | .Custom b => b.mines

structure Settings where
  difficulty : Difficulty
deriving DecidableEq, Repr

/-- The configurations constructible in the source: the presets satisfy this, and
CustomBoard::new validates exactly this. -/
def Settings.Valid (s : Settings) : Prop :=
  1 ≤ s.difficulty.width ∧ 1 ≤ s.difficulty.height ∧
    1 ≤ s.difficulty.mines ∧ s.difficulty.mines < s.difficulty.width * s.difficulty.height

inductive Action where
  | Quit
  | ChangeSettings (settings : Settings)
  | Reset
  | Open (x y : Nat)
  | Flag (x y : Nat)
  | Chord (x y : Nat)
  | OpenOrChord (x y : Nat)
deriving DecidableEq, Repr

/-- The static rejection strings of src/game/mod.rs as an enumeration:
invalidCoordinate is "invalid coordinate", gameOver is "Game is over",
cellFlagged is "Cell if flagged", cellAlreadyOpen is "Cell is already open",
notHidden is "Cell not hidden", cellIsFlagged is "Cell is flagged",
cellIsHidden is "Cell is hidden", zeroChord is "0s get auto-chorded.",
wrongFlags is the incorrect-number-of-flags chord rejection,
autoTripped is "Auto-tripped on mine.",
quitMsg is "Quit should be processed by the engine.". -/
inductive Msg where
  | invalidCoordinate
  | gameOver
  | cellFlagged
  | cellAlreadyOpen
  | notHidden
  | cellIsFlagged
  | cellIsHidden
  | zeroChord
  | wrongFlags
  | autoTripped
  | quitMsg
deriving DecidableEq, Repr

/-- Modelled from the spec: `GameRules` lives in src/game/rules.rs, absent from the
snapshot. Its operations are those of spec section 4.2, which the `Game` of src/core.rs
implements, so GameRules is embedded as that structure; its constructor takes
(width, height, mine_count) in the section-4.2 order and validates as there. The
explicit randomizer argument stands for default_randomizer's hidden thread_rng. -/
def GameRules.new (width height num_mines : Nat) (randomizer : Core.Randomizer) :
    Option Core.Game :=
  Core.Game.new_with width height num_mines randomizer

structure Game where
  rules : Core.Game
  timer : Timer
  board : List (List Cell)
  settings : Settings
  mines_remaining : Nat

/-- Game::new (src/game/mod.rs). -/
def Game.new (settings : Settings) (R : Core.Randomizer) : Option Game :=
  (GameRules.new settings.difficulty.width settings.difficulty.height
      settings.difficulty.mines R).map fun rules =>
    { rules := rules, timer := Timer.new,
      board := List.replicate settings.difficulty.height
        (List.replicate settings.difficulty.width Cell.Hidden),
      settings := settings,
      mines_remaining := settings.difficulty.mines }

def Game.width (g : Game) : Nat := g.settings.difficulty.width

def Game.height (g : Game) : Nat := g.settings.difficulty.height

def Game.mines (g : Game) : Nat := g.settings.difficulty.mines

def Game.state (g : Game) : Core.GameState := g.rules.get_state

def Game.mines_remainingQ (g : Game) : Nat := g.mines_remaining

def hiddenCount (g : Game) : Nat := gcountP Cell.isHidden g.board

/-- The usize modulus: mines_remaining is a usize in the source, and usize arithmetic
wraps at 2^64 when overflow checks are off (and panics when they are on). -/
def usizeMod : Nat := 2 ^ 64

def usizeSub1 (n : Nat) : Nat := (n + (usizeMod - 1)) % usizeMod

def usizeAdd1 (n : Nat) : Nat := (n + 1) % usizeMod

/-- Game::neighbours (src/game/mod.rs): the up-to-8 in-bounds neighbours of (x, y) in
row-major order, from the ranges y.saturating_sub(1)..min(height, y+2) and
x.saturating_sub(1)..min(width, x+2), skipping (x, y) itself. -/
def neighboursList (w h x y : Nat) : List (Nat × Nat) :=
  (List.range' (y - 1) (min h (y + 2) - (y - 1))).flatMap fun yn =>
    (List.range' (x - 1) (min w (x + 2) - (x - 1))).filterMap fun xn =>
      if xn = x ∧ yn = y then none else some (xn, yn)

def enumFrom (n : Nat) : List α → List (Nat × α)
  | [] => []
  | a :: l => (n, a) :: enumFrom (n + 1) l

def listTraverse (f : α → Option β) : List α → Option (List β)
  | [] => some []
  | a :: l => (f a).bind fun b => (listTraverse f l).map fun bl => b :: bl

/-- One cell of Game::query_board (src/game/mod.rs): Hidden cells take the rules
engine's truth, Flag cells become Mine over a real mine and FalseFlag otherwise,
all other cells stay; a failing get_cell read is the Rust index panic. -/
def queryCell (g : Game) (x y : Nat) (c : Cell) : Option Cell :=
  if c = Cell.Hidden then (Core.Game.get_cell g.rules x y).map cellFrom
  else if c = Cell.Flag then
    (Core.Game.get_cell g.rules x y).map fun rc =>
      if rc.is_clear then Cell.FalseFlag else Cell.Mine
  else some c

def queryRows (g : Game) : Option (List (List Cell)) :=
  listTraverse (fun p => listTraverse (fun q => queryCell g q.1 p.1 q.2) (enumFrom 0 p.2))
    (enumFrom 0 g.board)

/-- Game::query_board (src/game/mod.rs): runs only once the coarse state is terminal,
and panics (none) in any other state. -/
def Game.query_board (g : Game) : Option Game :=
  match g.state with
  | .Won => (queryRows g).map fun b => { g with board := b }
  | .Lost => (queryRows g).map fun b => { g with board := b }
  | _ => none

/-- Result of running an overlay operation: `out` is fuel exhaustion (an artifact of
the embedding, ruled out for sufficient fuel below), `fail` is a Rust panic, and
`done g r` is completion in state g with Ok or a rejection message. -/
inductive RunRes where
  | out
  | fail
  | done (g : Game) (r : Except Msg Unit)

inductive Task where
  | openT (g : Game) (x y : Nat)
  | neighT (g : Game) (l : List (Nat × Nat))

/-- Game::open and Game::open_neighbors (src/game/mod.rs) as one fuel-indexed
interpreter: `openT g x y` is `open(x, y)` and `neighT g l` is open_neighbors'
loop over the (already computed) neighbour list l. In the source `open` discards the
Result of its open_neighbors cascade and returns Ok, while open_neighbors propagates
an inner Err with `?` and rejects with "Auto-tripped on mine." when the cell it just
opened shows a tripped mine. Every recursive call consumes one unit of fuel. -/
def run : Nat → Task → RunRes
  | 0, _ => .out
  | Nat.succ fuel, .openT g x y =>
    if ¬(x < g.width ∧ y < g.height) then .done g (.error .invalidCoordinate)
    else
      let g := if g.state = Core.GameState.New then { g with timer := g.timer.start } else g
      if g.state = Core.GameState.Lost ∨ g.state = Core.GameState.Won then
        .done g (.error .gameOver)
      else
        match gget g.board x y with
        | none => .fail
        | some Cell.Flag => .done g (.error .cellFlagged)
        | some (Cell.Open _) => .done g (.error .cellAlreadyOpen)
        | some Cell.Hidden =>
          match Core.Game.openCell g.rules x y with
          | none => .fail
          | some (_, Except.error _) => .fail
          | some (rules, Except.ok info) =>
            let g := { g with rules := rules }
            if info.state = Core.GameState.Playing then
              let g := { g with board := gset g.board x y (cellFrom info.cell) }
              if info.cell = Core.Cell.Clear 0 then
                match run fuel (.neighT g (neighboursList g.width g.height x y)) with
                | .out => .out
                | .fail => .fail
                | .done g _ => .done g (.ok ())
              else .done g (.ok ())
            else
              let g := if info.cell = Core.Cell.Mine
                       then { g with board := gset g.board x y Cell.TrippedMine } else g
              match g.query_board with
              | none => .fail
              | some g => .done { g with timer := g.timer.stop } (.ok ())
        | some _ => .fail
  | Nat.succ fuel, .neighT g [] => .done g (.ok ())
  | Nat.succ fuel, .neighT g ((xn, yn) :: rest) =>
    match gget g.board xn yn with
    | none => .fail
    | some c =>
      if c = Cell.Hidden then
        match run fuel (.openT g xn yn) with
        | .out => .out
        | .fail => .fail
        | .done g₁ (.error e) => .done g₁ (.error e)
        | .done g₁ (.ok _) =>
          match gget g₁.board xn yn with
          | none => .fail
          | some c₁ =>
            if c₁ = Cell.TrippedMine then .done g₁ (.error .autoTripped)
            else run fuel (.neighT g₁ rest)
      else
        if c = Cell.TrippedMine then .done g (.error .autoTripped)
        else run fuel (.neighT g rest)

/-- Game::open (src/game/mod.rs); the spec's name for this player intent is probe. -/
def Game.probe (fuel : Nat) (g : Game) (x y : Nat) : RunRes := run fuel (.openT g x y)

/-- Game::flag (src/game/mod.rs). mines_remaining is a usize, so the decrement of an
already-zero counter underflows; see usizeSub1. -/
def Game.flag (g : Game) (x y : Nat) : RunRes :=
  if ¬(x < g.width ∧ y < g.height) then .done g (.error .invalidCoordinate)
  else
    match gget g.board x y with
    | none => .fail
    | some Cell.Hidden =>
      .done { g with board := gset g.board x y Cell.Flag,
                     mines_remaining := usizeSub1 g.mines_remaining } (.ok ())
    | some Cell.Flag =>
      .done { g with board := gset g.board x y Cell.Hidden,
                     mines_remaining := usizeAdd1 g.mines_remaining } (.ok ())
    | some _ => .done g (.error .notHidden)

/-- Game::chord (src/game/mod.rs). The flag-counting loop reads only in-bounds
neighbour cells, counted here with a filter. -/
def Game.chord (fuel : Nat) (g : Game) (x y : Nat) : RunRes :=
  if ¬(x < g.width ∧ y < g.height) then .done g (.error .invalidCoordinate)
  else
    match gget g.board x y with
    | none => .fail
    | some Cell.Flag => .done g (.error .cellIsFlagged)
    | some Cell.Hidden => .done g (.error .cellIsHidden)
    | some (Cell.Open mines) =>
      if g.state ≠ Core.GameState.Playing then .done g (.error .gameOver)
      else if mines = 0 then .done g (.error .zeroChord)
      else
        let neighbouring_flags :=
          ((neighboursList g.width g.height x y).filter fun p =>
            gget g.board p.1 p.2 = some Cell.Flag).length
        if neighbouring_flags = mines then
          run fuel (.neighT g (neighboursList g.width g.height x y))
        else .done g (.error .wrongFlags)
    | some _ => .done g (.error .gameOver)

/-- Game::reset (src/game/mod.rs). -/
def Game.reset (g : Game) : RunRes :=
  .done { g with timer := g.timer.reset,
                 board := List.replicate g.height (List.replicate g.width Cell.Hidden),
                 rules := g.rules.clear,
                 mines_remaining := g.mines } (.ok ())

/-- Game::change_settings (src/game/mod.rs): stores the new settings, and resets the
rules engine and the overlay when the difficulty changed. -/
def Game.change_settings (g : Game) (s : Settings) : RunRes :=
  let should_reset := g.settings.difficulty ≠ s.difficulty
  let g := { g with settings := s }
  if should_reset then
    Game.reset { g with rules :=
      (g.rules.reset s.difficulty.width s.difficulty.height s.difficulty.mines) }
  else .done g (.ok ())

/-- Game::open_or_chord (src/game/mod.rs): reads board[y][x] with no bounds check. -/
def Game.open_or_chord (fuel : Nat) (g : Game) (x y : Nat) : RunRes :=
  match gget g.board x y with
  | none => .fail
  | some (Cell.Open _) => Game.chord fuel g x y
  | some _ => Game.probe fuel g x y

/-- Game::action (src/game/mod.rs). -/
def Game.action (fuel : Nat) (g : Game) : Action → RunRes
  | .ChangeSettings s => g.change_settings s
  | .Reset => g.reset
  | .Open x y => g.probe fuel x y
  | .Flag x y => g.flag x y
  | .Quit => .done g (.error .quitMsg)
  | .Chord x y => g.chord fuel x y
  | .OpenOrChord x y => g.open_or_chord fuel x y

/-- Actions the host can construct: a ChangeSettings payload always carries a valid
Settings value, since CustomBoard::new validates at construction. -/
def ActionValid : Action → Prop
  | .ChangeSettings s => s.Valid
  | _ => True

/-- The guarantee the board generator gives the rules engine on every valid request:
a width-by-height grid with exactly mine_count mines (claim C2 proves this holds for
default_randomizer under every in-range draw stream; the fixed test randomizers satisfy
it too). -/
def GoodR (R : Core.Randomizer) : Prop :=
  ∀ w h m fx fy, 1 ≤ w → 1 ≤ h → 1 ≤ m → m < w * h → fx < w → fy < h →
    gridDims (R w h m fx fy) w h ∧ gcountP (fun b => b) (R w h m fx fy) = m

/-- Overlay states reachable from a fresh game through the public operations. -/
inductive Reachable : Game → Prop where
  | base (s : Settings) (R : Core.Randomizer) (g : Game) :
      s.Valid → GoodR R → Game.new s R = some g → Reachable g
  | step (g : Game) (a : Action) (fuel : Nat) (g' : Game) (r : Except Msg Unit) :
      Reachable g → ActionValid a → Game.action fuel g a = .done g' r → Reachable g'

/-- The part of the overlay invariant specific to the Playing state: the rules grids
have the advertised dimensions, the neighbour grid is the derived one, every cell the
overlay still shows as Hidden or Flag is unopened in the rules engine, and every
opened rules cell is mine-free. -/
structure InvPlaying (g : Game) : Prop where
  mines_dims : gridDims g.rules.mines g.width g.height
  opened_dims : gridDims g.rules.opened g.width g.height
  nbrs_eq : g.rules.neighbours =
    Core.calculate_neighbours g.rules.width g.rules.height g.rules.mines
  hidden_unopened : ∀ x y, x < g.width → y < g.height →
    (gget g.board x y = some Cell.Hidden ∨ gget g.board x y = some Cell.Flag) →
    gget g.rules.opened x y = some false
  opened_no_mine : ∀ x y, x < g.width → y < g.height →
    gget g.rules.opened x y = some true → gget g.rules.mines x y = some false

/-- The overlay invariant: what every reachable state satisfies and what the rules
delegation of the overlay probe relies on. -/
structure Inv (g : Game) : Prop where
  rw_eq : g.rules.width = g.width
  rh_eq : g.rules.height = g.height
  rm_eq : g.rules.num_mines = g.mines
  board_dims : gridDims g.board g.width g.height
  valid_w : 1 ≤ g.width
  valid_h : 1 ≤ g.height
  valid_m : 1 ≤ g.mines
  valid_mlt : g.mines < g.width * g.height
  goodR : GoodR g.rules.randomizer
  playing : g.state = Core.GameState.Playing → InvPlaying g

/-- Concrete fixture: the overlay game the source's Game::new builds for the valid
2-by-2, 1-mine custom settings, with the deterministic row-major dummy_randomizer of
the core tests standing in for thread_rng. -/
def Game.mkOv22 : Game :=
  { rules := { state := .New, width := 2, height := 2, num_mines := 1,
               randomizer := Core.dummy_randomizer, clear_remaining := 0,
               mines := [], opened := [], neighbours := [] },
    timer := ⟨false⟩,
    board := [[Cell.Hidden, Cell.Hidden], [Cell.Hidden, Cell.Hidden]],
    settings := ⟨.Custom ⟨2, 2, 1⟩⟩,
    mines_remaining := 1 }

/-- Concrete fixture: mkOv22 after probe(1, 1): the dummy mine sits at (0, 0), so the
probe opens (1, 1) as Open 1 and starts the timer. -/
def Game.mkOv22a : Game :=
  { rules := { state := .Playing, width := 2, height := 2, num_mines := 1,
               randomizer := Core.dummy_randomizer, clear_remaining := 2,
               mines := [[true, false], [false, false]],
               opened := [[false, false], [false, true]],
               neighbours := [[1, 1], [1, 1]] },
    timer := ⟨true⟩,
    board := [[Cell.Hidden, Cell.Hidden], [Cell.Hidden, Cell.Open 1]],
    settings := ⟨.Custom ⟨2, 2, 1⟩⟩,
    mines_remaining := 1 }

/-- Concrete fixture: mkOv22a after flag(0, 1) — a mis-flag, since the mine is at
(0, 0): the Open 1 cell at (1, 1) now sees exactly one neighbouring flag. -/
def Game.mkOv22b : Game :=
  { rules := { state := .Playing, width := 2, height := 2, num_mines := 1,
               randomizer := Core.dummy_randomizer, clear_remaining := 2,
               mines := [[true, false], [false, false]],
               opened := [[false, false], [false, true]],
               neighbours := [[1, 1], [1, 1]] },
    timer := ⟨true⟩,
    board := [[Cell.Hidden, Cell.Hidden], [Cell.Flag, Cell.Open 1]],
    settings := ⟨.Custom ⟨2, 2, 1⟩⟩,
    mines_remaining := 0 }

/-- Concrete fixture: the lost end state that both chord(1, 1) and a direct probe of
the mine at (0, 0) produce from mkOv22b — detonated cell TrippedMine, mis-flag
reconciled to FalseFlag, every other cell disclosed, timer stopped. -/
def Game.mkOv22trip : Game :=
  { rules := { state := .Lost, width := 2, height := 2, num_mines := 1,
               randomizer := Core.dummy_randomizer, clear_remaining := 2,
               mines := [[true, false], [false, false]],
               opened := [[true, false], [false, true]],
               neighbours := [[1, 1], [1, 1]] },
    timer := ⟨false⟩,
    board := [[Cell.TrippedMine, Cell.Open 1], [Cell.FalseFlag, Cell.Open 1]],
    settings := ⟨.Custom ⟨2, 2, 1⟩⟩,
    mines_remaining := 0 }

/-- Concrete fixture: the overlay game for the valid 2-by-1, 1-mine custom settings. -/
def Game.mkOv21 : Game :=
  { rules := { state := .New, width := 2, height := 1, num_mines := 1,
               randomizer := Core.dummy_randomizer, clear_remaining := 0,
               mines := [], opened := [], neighbours := [] },
    timer := ⟨false⟩,
    board := [[Cell.Hidden, Cell.Hidden]],
    settings := ⟨.Custom ⟨2, 1, 1⟩⟩,
    mines_remaining := 1 }

/-- Concrete fixture: mkOv21 after flag(0, 0): the counter already reads zero. -/
def Game.mkOv21F : Game :=
  { rules := { state := .New, width := 2, height := 1, num_mines := 1,
               randomizer := Core.dummy_randomizer, clear_remaining := 0,
               mines := [], opened := [], neighbours := [] },
    timer := ⟨false⟩,
    board := [[Cell.Flag, Cell.Hidden]],
    settings := ⟨.Custom ⟨2, 1, 1⟩⟩,
    mines_remaining := 0 }

end Overlay


theorem set_getElem?_self (l : List α) (n : Nat) (a : α) :
    (l.set n a)[n]? = (l[n]?).map fun _ => a := by
  induction l generalizing n with
  | nil => simp
  | cons b l ih =>
    cases n with
    | zero => simp
    | succ n => simpa using ih n

theorem set_getElem?_ne (l : List α) {m n : Nat} (h : m ≠ n) (a : α) :
    (l.set m a)[n]? = l[n]? := by
  induction l generalizing m n with
  | nil => simp
  | cons b l ih =>
    cases m with
    | zero => cases n with
      | zero => exact absurd rfl h
      | succ n => simp
    | succ m => cases n with
      | zero => simp
      | succ n => simpa using ih (fun hmn => h (by omega))

theorem modify_getElem?_self (l : List α) (n : Nat) (f : α → α) :
    (l.modify f n)[n]? = (l[n]?).map f := by
  induction l generalizing n with
  | nil => simp [List.modify]
  | cons b l ih =>
    cases n with
    | zero => simp [List.modify]
    | succ n =>
      have h2 : (b :: l).modify f (n + 1) = b :: l.modify f n := rfl
      rw [h2, List.getElem?_cons_succ, List.getElem?_cons_succ, ih n]

theorem modify_getElem?_ne (l : List α) {m n : Nat} (h : m ≠ n) (f : α → α) :
    (l.modify f m)[n]? = l[n]? := by
  induction l generalizing m n with
  | nil => simp [List.modify]
  | cons b l ih =>
    cases m with
    | zero => cases n with
      | zero => exact absurd rfl h
      | succ n =>
        have h2 : (b :: l).modify f 0 = f b :: l := rfl
        rw [h2, List.getElem?_cons_succ, List.getElem?_cons_succ]
    | succ m =>
      have h2 : (b :: l).modify f (m + 1) = b :: l.modify f m := rfl
      cases n with
      | zero => rw [h2, List.getElem?_cons_zero, List.getElem?_cons_zero]
      | succ n =>
        rw [h2, List.getElem?_cons_succ, List.getElem?_cons_succ, ih (fun hmn => h (by omega))]

theorem gget_gset (g : List (List α)) (x y : Nat) (a : α) (i j : Nat) :
    gget (gset g x y a) i j =
      if x = i ∧ y = j then (gget g i j).map fun _ => a else gget g i j := by
  induction g generalizing y j with
  | nil => simp [gset, gget]
  | cons row rs ih =>
    cases y with
    | zero =>
      cases j with
      | zero =>
        by_cases hx : x = i
        · subst hx; simp [gset, gget, set_getElem?_self]
        · simp [gset, gget, set_getElem?_ne _ hx, hx]
      | succ j => simp [gset, gget]
    | succ y =>
      cases j with
      | zero => simp [gset, gget]
      | succ j =>
        have h := ih y j
        simp only [gget, gset, List.getElem?_cons_succ] at h ⊢
        rw [h]
        by_cases hy : y = j <;> simp [hy]

theorem gget_gmodify (g : List (List α)) (x y : Nat) (f : α → α) (i j : Nat) :
    gget (gmodify g x y f) i j =
      if x = i ∧ y = j then (gget g i j).map f else gget g i j := by
  induction g generalizing y j with
  | nil => simp [gmodify, gget]
  | cons row rs ih =>
    cases y with
    | zero =>
      cases j with
      | zero =>
        by_cases hx : x = i
        · subst hx; simp [gmodify, gget, modify_getElem?_self]
        · simp [gmodify, gget, modify_getElem?_ne _ hx, hx]
      | succ j => simp [gmodify, gget]
    | succ y =>
      cases j with
      | zero => simp [gmodify, gget]
      | succ j =>
        have h := ih y j
        simp only [gget, gmodify, List.getElem?_cons_succ] at h ⊢
        rw [h]
        by_cases hy : y = j <;> simp [hy]

theorem gget_isSome_of_dims {g : List (List α)} {w h : Nat} (hd : gridDims g w h)
    {x y : Nat} (hx : x < w) (hy : y < h) : ∃ a, gget g x y = some a := by
  obtain ⟨hlen, hrows⟩ := hd
  have hy' : y < g.length := by omega
  have hrow : g[y]? = some g[y] := List.getElem?_eq_getElem hy'
  have hwr : g[y].length = w := hrows _ (List.getElem_mem hy')
  have hx' : x < g[y].length := by omega
  have ha : g[y][x]? = some g[y][x] := List.getElem?_eq_getElem hx'
  exact ⟨g[y][x], by simp [gget, hrow, ha]⟩

theorem gget_replicate {a : α} {w h x y : Nat} (hx : x < w) (hy : y < h) :
    gget (List.replicate h (List.replicate w a)) x y = some a := by
  simp [gget, List.getElem?_replicate, hy, hx]

theorem gridDims_replicate (w h : Nat) (a : α) :
    gridDims (List.replicate h (List.replicate w a)) w h := by
  refine ⟨by simp, fun row hrow => ?_⟩
  rw [List.eq_of_mem_replicate hrow]
  simp

theorem gset_length (g : List (List α)) (x y : Nat) (a : α) :
    (gset g x y a).length = g.length := by
  induction g generalizing y with
  | nil => simp [gset]
  | cons row rs ih =>
    cases y with
    | zero => simp [gset]
    | succ y => simp [gset, ih]

theorem gset_mem (g : List (List α)) (x y : Nat) (a : α) {row : List α}
    (hrow : row ∈ gset g x y a) : row ∈ g ∨ ∃ r ∈ g, row = r.set x a := by
  induction g generalizing y with
  | nil => simp [gset] at hrow
  | cons r rs ih =>
    cases y with
    | zero =>
      rcases List.mem_cons.mp hrow with h1 | h2
      · exact Or.inr ⟨r, by simp, h1⟩
      · exact Or.inl (by simp [h2])
    | succ y =>
      rcases List.mem_cons.mp hrow with h1 | h2
      · exact Or.inl (by simp [h1])
      · rcases ih y h2 with h3 | ⟨r', hr', he⟩
        · exact Or.inl (by simp [h3])
        · exact Or.inr ⟨r', by simp [hr'], he⟩

theorem gridDims_gset {g : List (List α)} {w h : Nat} (hd : gridDims g w h) (x y : Nat) (a : α) :
    gridDims (gset g x y a) w h := by
  obtain ⟨hlen, hrows⟩ := hd
  refine ⟨by rw [gset_length]; exact hlen, fun row hrow => ?_⟩
  rcases gset_mem g x y a hrow with h1 | ⟨r, hr, he⟩
  · exact hrows row h1
  · rw [he]; simpa using hrows r hr

theorem gget_of_dims_oob {g : List (List α)} {w h : Nat} (hd : gridDims g w h)
    {x y : Nat} (hxy : w ≤ x ∨ h ≤ y) : gget g x y = none := by
  obtain ⟨hlen, hrows⟩ := hd
  rcases hxy with hx | hy
  · unfold gget
    cases hrow : g[y]? with
    | none => rfl
    | some row =>
      have hmem : row ∈ g := by
        obtain ⟨hlt, he⟩ := List.getElem?_eq_some_iff.mp hrow
        exact he ▸ List.getElem_mem hlt
      have : row.length = w := hrows row hmem
      simp [List.getElem?_eq_none (by omega : row.length ≤ x)]
  · simp [gget, List.getElem?_eq_none (by omega : g.length ≤ y)]


/-! ## Correctness of default_randomizer -/


theorem countTrue_cons_true (l : List Bool) : countTrue (true :: l) = countTrue l + 1 := by
  simp [countTrue, List.countP_cons]

theorem countTrue_cons_false (l : List Bool) : countTrue (false :: l) = countTrue l := by
  simp [countTrue, List.countP_cons]

theorem countFalse_cons_true (l : List Bool) : countFalse (true :: l) = countFalse l := by
  simp [countFalse, List.countP_cons]

theorem countFalse_cons_false (l : List Bool) : countFalse (false :: l) = countFalse l + 1 := by
  simp [countFalse, List.countP_cons]

theorem placeFree_spec {g : List Bool} {r : Nat} (h : r < countFalse g) :
    ∃ g', Core.placeFree r g = some g' ∧
      g'.length = g.length ∧
      countFalse g' + 1 = countFalse g ∧
      countTrue g' = countTrue g + 1 ∧
      (∀ i : Nat, g[i]? = some true → g'[i]? = some true) := by
  induction g generalizing r with
  | nil => simp [countFalse] at h
  | cons b g ih =>
    cases b with
    | true =>
      have h' : r < countFalse g := by
        have := countFalse_cons_true g; omega
      obtain ⟨g', hg', hlen, hcf, hct, hpres⟩ := ih h'
      refine ⟨true :: g', by simp [Core.placeFree, hg'], by simp [hlen], ?_, ?_, ?_⟩
      · rw [countFalse_cons_true, countFalse_cons_true]; omega
      · rw [countTrue_cons_true, countTrue_cons_true]; omega
      · intro i hi
        cases i with
        | zero => simp
        | succ i => simpa using hpres i (by simpa using hi)
    | false =>
      cases r with
      | zero =>
        refine ⟨true :: g, by simp [Core.placeFree], by simp, ?_, ?_, ?_⟩
        · rw [countFalse_cons_true, countFalse_cons_false]
        · rw [countTrue_cons_true, countTrue_cons_false]
        · intro i hi
          cases i with
          | zero => simp at hi
          | succ i => simpa using (show g[i]? = some true by simpa using hi)
      | succ r =>
        have h' : r < countFalse g := by
          have := countFalse_cons_false g; omega
        obtain ⟨g', hg', hlen, hcf, hct, hpres⟩ := ih h'
        refine ⟨false :: g', by simp [Core.placeFree, hg'], by simp [hlen], ?_, ?_, ?_⟩
        · rw [countFalse_cons_false, countFalse_cons_false]; omega
        · rw [countTrue_cons_false, countTrue_cons_false]; omega
        · intro i hi
          cases i with
          | zero => simp at hi
          | succ i => simpa using hpres i (by simpa using hi)

theorem placeMines_spec (rng : Nat → Nat → Nat) (hrng : ∀ k b, 0 < b → rng k b < b)
    (spaces : Nat) : ∀ (ml k : Nat) (g : List Bool), countFalse g = spaces + ml →
    ∃ g', Core.placeMines rng spaces k ml g = some g' ∧
      g'.length = g.length ∧ countFalse g' = spaces ∧ countTrue g' = countTrue g + ml ∧
      (∀ i : Nat, g[i]? = some true → g'[i]? = some true) := by
  intro ml
  induction ml with
  | zero =>
    intro k g hg
    exact ⟨g, rfl, rfl, by omega, by omega, fun i hi => hi⟩
  | succ ml ih =>
    intro k g hg
    have hb : rng k (spaces + (ml + 1)) < spaces + (ml + 1) := hrng k _ (by omega)
    have hr : rng k (spaces + (ml + 1)) < countFalse g := by omega
    obtain ⟨g₁, hg₁, hlen₁, hcf₁, hct₁, hpres₁⟩ := placeFree_spec hr
    obtain ⟨g₂, hg₂, hlen₂, hcf₂, hct₂, hpres₂⟩ := ih (k + 1) g₁ (by omega)
    refine ⟨g₂, ?_, by omega, by omega, by omega, fun i hi => hpres₂ i (hpres₁ i hi)⟩
    simp [Core.placeMines, hg₁, hg₂]

theorem countP_set_of_getElem {l : List α} {i : Nat} {a : α} (h : l[i]? = some a)
    (b : α) (p : α → Bool) :
    (l.set i b).countP p + (if p a then 1 else 0) = l.countP p + (if p b then 1 else 0) := by
  induction l generalizing i with
  | nil => simp at h
  | cons x l ih =>
    cases i with
    | zero =>
      have hax : a = x := by simpa using h.symm
      subst hax
      simp only [List.set_cons_zero, List.countP_cons]
      omega
    | succ i =>
      have h' : l[i]? = some a := by simpa using h
      have := ih h'
      simp only [List.set_cons_succ, List.countP_cons]
      omega

theorem countP_replicate (p : α → Bool) (n : Nat) (a : α) :
    (List.replicate n a).countP p = if p a then n else 0 := by
  induction n with
  | zero => simp
  | succ n ih => simp [List.replicate_succ, List.countP_cons, ih]; split <;> omega

theorem countFalse_set_true {l : List Bool} {i : Nat} (h : l[i]? = some false) :
    countFalse (l.set i true) + 1 = countFalse l := by
  have h2 := countP_set_of_getElem h true (fun b => !b)
  simp at h2
  simp only [countFalse]
  omega

theorem countTrue_set_true {l : List Bool} {i : Nat} (h : l[i]? = some false) :
    countTrue (l.set i true) = countTrue l + 1 := by
  have h2 := countP_set_of_getElem h true (fun b => b)
  simp at h2
  simp only [countTrue]
  omega

theorem countTrue_set_false {l : List Bool} {i : Nat} (h : l[i]? = some true) :
    countTrue (l.set i false) + 1 = countTrue l := by
  have h2 := countP_set_of_getElem h false (fun b => b)
  simp at h2
  simp only [countTrue]
  omega

theorem toGrid_dims (w : Nat) : ∀ (h : Nat) (l : List Bool), l.length = w * h →
    gridDims (Core.toGrid w h l) w h := by
  intro h
  induction h with
  | zero => intro l hl; exact ⟨rfl, by simp [Core.toGrid]⟩
  | succ h ih =>
    intro l hl
    obtain ⟨hlen, hrows⟩ := ih (l.drop w) (by rw [List.length_drop, hl, Nat.mul_succ]; omega)
    refine ⟨by simp [Core.toGrid, hlen], fun row hrow => ?_⟩
    rcases List.mem_cons.mp hrow with h1 | h2
    · subst h1
      simp only [List.length_take, hl, Nat.mul_succ]
      omega
    · exact hrows row h2

theorem gget_toGrid (w : Nat) : ∀ (h : Nat) (l : List Bool) (x y : Nat), x < w → y < h →
    gget (Core.toGrid w h l) x y = l[y * w + x]? := by
  intro h
  induction h with
  | zero => intro l x y hx hy; omega
  | succ h ih =>
    intro l x y hx hy
    cases y with
    | zero =>
      simp only [Core.toGrid, gget, List.getElem?_cons_zero, Option.some_bind]
      rw [List.getElem?_take_of_lt hx]
      simp
    | succ y =>
      have := ih (l.drop w) x y hx (by omega)
      simp only [Core.toGrid, gget, List.getElem?_cons_succ] at this ⊢
      rw [this, List.getElem?_drop]
      congr 1
      ring

theorem countTrue_toGrid (w : Nat) : ∀ (h : Nat) (l : List Bool), l.length = w * h →
    gcountP (fun b => b) (Core.toGrid w h l) = countTrue l := by
  intro h
  induction h with
  | zero =>
    intro l hl
    have : l = [] := List.length_eq_zero.mp (by simpa using hl)
    subst this
    simp [Core.toGrid, gcountP, countTrue]
  | succ h ih =>
    intro l hl
    have hdrop := ih (l.drop w) (by rw [List.length_drop, hl, Nat.mul_succ]; omega)
    simp only [Core.toGrid, gcountP, List.map_cons, List.sum_cons]
    rw [show ((Core.toGrid w h (l.drop w)).map (List.countP fun b => b)).sum
          = gcountP (fun b => b) (Core.toGrid w h (l.drop w)) from rfl, hdrop]
    have hsplit : countTrue (l.take w) + countTrue (l.drop w) = countTrue l := by
      rw [countTrue, countTrue, countTrue, ← List.countP_append, List.take_append_drop]
    simp only [countTrue] at hsplit ⊢
    omega

/-- Main correctness helper for default_randomizer, stated on the flat board. -/
theorem default_randomizer_spec (w h m fx fy : Nat) (rng : Nat → Nat → Nat)
    (hm1 : 1 ≤ m) (hm2 : m ≤ w * h - 1) (hfx : fx < w) (hfy : fy < h)
    (hrng : ∀ k b, 0 < b → rng k b < b) :
    ∃ grid, Core.default_randomizer w h m fx fy rng = some grid ∧
      gridDims grid w h ∧ gcountP (fun b => b) grid = m ∧ gget grid fx fy = some false := by
  have harea : fy * w + fx < w * h := by
    have h1 : fy * w + fx < (fy + 1) * w := by
      rw [Nat.add_mul, Nat.one_mul]; omega
    have h2 : (fy + 1) * w ≤ h * w := Nat.mul_le_mul_right w (by omega)
    have h3 : h * w = w * h := Nat.mul_comm h w
    omega
  set idx := fy * w + fx with hidx
  set area := w * h with harea_def
  have hrep : (List.replicate area false)[idx]? = some false := by
    simp [List.getElem?_replicate, harea]
  set init := (List.replicate area false).set idx true with hinit
  have hlen_init : init.length = area := by simp [hinit]
  have hrepl_cf : countFalse (List.replicate area false) = area := by
    simp [countFalse, countP_replicate]
  have hrepl_ct : countTrue (List.replicate area false) = 0 := by
    simp [countTrue, countP_replicate]
  have hcf_init : countFalse init = area - 1 := by
    have h2 : countFalse init + 1 = countFalse (List.replicate area false) := by
      rw [hinit]; exact countFalse_set_true hrep
    omega
  have hct_init : countTrue init = 1 := by
    have h2 : countTrue init = countTrue (List.replicate area false) + 1 := by
      rw [hinit]; exact countTrue_set_true hrep
    omega
  have hsafe_init : init[idx]? = some true := by
    rw [hinit, set_getElem?_self, hrep]
    rfl
  obtain ⟨g', hg', hlen', hcf', hct', hpres'⟩ :=
    placeMines_spec rng hrng (area - m - 1) m 0 init (by omega)
  have hsafe' : g'[idx]? = some true := hpres' idx hsafe_init
  set final := g'.set idx false with hfinal
  have hlenf : final.length = area := by simp [hfinal, hlen', hlen_init]
  have hctf : countTrue final = m := by
    have h2 : countTrue final + 1 = countTrue g' := by
      rw [hfinal]; exact countTrue_set_false hsafe'
    omega
  have hsafef : final[idx]? = some false := by
    rw [hfinal, set_getElem?_self, hsafe']
    rfl
  refine ⟨Core.toGrid w h final, ?_, toGrid_dims w h final (by omega),
    by rw [countTrue_toGrid w h final (by omega), hctf],
    by rw [gget_toGrid w h final fx fy hfx hfy, ← hidx, hsafef]⟩
  unfold Core.default_randomizer
  simp only [← harea_def, ← hidx, ← hinit, hg', Option.map_some]
  rfl

/-! ## Pointwise characterization of calculate_neighbours -/

theorem count_pair_map (j' : Nat) (r : List Nat) (j i : Nat) :
    ((r.map fun i' => (j', i')).count (j, i)) = if j' = j then r.count i else 0 := by
  induction r with
  | nil => simp
  | cons a r ih =>
    simp only [List.map_cons, List.count_cons, ih]
    by_cases hj : j' = j
    · subst hj
      by_cases ha : a = i
      · subst ha; simp
      · simp [ha, Prod.ext_iff]
    · simp [hj, Prod.ext_iff]

theorem count_range' (s n a : Nat) :
    (List.range' s n).count a = if s ≤ a ∧ a < s + n then 1 else 0 := by
  rw [List.count_eq_of_nodup (List.nodup_range' s n)]
  by_cases hmem : a ∈ List.range' s n
  · rw [if_pos hmem, if_pos (List.mem_range'_1.mp hmem)]
  · rw [if_neg hmem, if_neg (fun hc => hmem (List.mem_range'_1.mpr hc))]

theorem count_range'_clip (s t a : Nat) :
    (List.range' s (t - s)).count a = if s ≤ a ∧ a < t then 1 else 0 := by
  rw [count_range']
  split_ifs with h1 h2 h2 <;> omega

theorem sum_map_ite_count (rows : List Nat) (j C : Nat) :
    (rows.map fun j' => if j' = j then C else 0).sum = rows.count j * C := by
  induction rows with
  | nil => simp
  | cons a rows ih =>
    simp only [List.map_cons, List.sum_cons, ih, List.count_cons]
    by_cases ha : a = j
    · subst ha; simp [Nat.add_mul]; omega
    · simp [ha, Ne.symm ha]

theorem count_mineBlock (w h x y j i : Nat) :
    (Core.mineBlock w h x y).count (j, i) =
      if (max 1 y - 1 ≤ j ∧ j < min h (y + 2)) ∧ (max 1 x - 1 ≤ i ∧ i < min w (x + 2))
      then 1 else 0 := by
  unfold Core.mineBlock
  rw [List.count_flatMap]
  have hmap : (List.map
      (List.count (j, i) ∘ fun j' =>
        (List.range' (max 1 x - 1) (min w (x + 2) - (max 1 x - 1))).map fun i' => (j', i'))
      (List.range' (max 1 y - 1) (min h (y + 2) - (max 1 y - 1))))
      = (List.range' (max 1 y - 1) (min h (y + 2) - (max 1 y - 1))).map
          fun j' => if j' = j then (if max 1 x - 1 ≤ i ∧ i < min w (x + 2) then 1 else 0) else 0 := by
    refine List.map_congr_left fun j' hj' => ?_
    simp only [Function.comp_apply]
    rw [count_pair_map, count_range'_clip]
  rw [hmap, sum_map_ite_count, count_range'_clip]
  split_ifs with h1 h2 h2 <;> omega

theorem gget_bumpList (ps : List (Nat × Nat)) (g : List (List Nat)) (i j : Nat) :
    gget (ps.foldl (fun g p => gmodify g p.2 p.1 (· + 1)) g) i j =
      (gget g i j).map (· + ps.count (j, i)) := by
  induction ps generalizing g with
  | nil => cases hg : gget g i j <;> simp [hg]
  | cons p ps ih =>
    obtain ⟨pj, pi⟩ := p
    rw [List.foldl_cons, ih, gget_gmodify, List.count_cons]
    by_cases hp : pi = i ∧ pj = j
    · have hbeq : ((pj, pi) == (j, i)) = true := by
        simp only [beq_iff_eq, Prod.mk.injEq]
        exact ⟨hp.2, hp.1⟩
      rw [if_pos hp, if_pos hbeq]
      cases hg : gget g i j <;> simp [hg] <;> omega
    · have hbeq : ¬((pj, pi) == (j, i)) = true := by
        simp only [beq_iff_eq, Prod.mk.injEq]
        intro hc
        exact hp ⟨hc.2, hc.1⟩
      rw [if_neg hp, if_neg hbeq, Nat.add_zero]

theorem gget_bump (w h x y : Nat) (g : List (List Nat)) (i j : Nat) :
    gget (Core.bump w h x y g) i j =
      (gget g i j).map (· + (Core.mineBlock w h x y).count (j, i)) :=
  gget_bumpList _ g i j

theorem gget_innerFold (mines : List (List Bool)) (w h y : Nat) (xs : List Nat)
    (g : List (List Nat)) (i j : Nat) :
    gget (xs.foldl (fun g x => if gget mines x y = some true then Core.bump w h x y g else g) g) i j
      = (gget g i j).map
          (· + (xs.map fun x => if gget mines x y = some true
                then (Core.mineBlock w h x y).count (j, i) else 0).sum) := by
  induction xs generalizing g with
  | nil => cases hg : gget g i j <;> simp [hg]
  | cons x xs ih =>
    rw [List.foldl_cons]
    by_cases hm : gget mines x y = some true
    · rw [if_pos hm, ih, gget_bump]
      simp only [List.map_cons, List.sum_cons, if_pos hm, Option.map_map]
      cases hg : gget g i j <;> simp [hg] <;> omega
    · rw [if_neg hm, ih]
      simp only [List.map_cons, List.sum_cons, if_neg hm, Nat.zero_add]

theorem gget_outerFold (mines : List (List Bool)) (w h : Nat) (ys : List Nat)
    (g : List (List Nat)) (i j : Nat) :
    gget (ys.foldl (fun g y => (List.range w).foldl
        (fun g x => if gget mines x y = some true then Core.bump w h x y g else g) g) g) i j
      = (gget g i j).map
          (· + (ys.map fun y => ((List.range w).map fun x =>
              if gget mines x y = some true
              then (Core.mineBlock w h x y).count (j, i) else 0).sum).sum) := by
  induction ys generalizing g with
  | nil => cases hg : gget g i j <;> simp [hg]
  | cons y ys ih =>
    rw [List.foldl_cons, ih, gget_innerFold]
    simp only [List.map_cons, List.sum_cons, Option.map_map]
    cases hg : gget g i j <;> simp [hg] <;> omega

theorem gget_calculate_neighbours (w h : Nat) (mines : List (List Bool)) (i j : Nat)
    (hi : i < w) (hj : j < h) :
    gget (Core.calculate_neighbours w h mines) i j =
      some (((List.range h).map fun y => ((List.range w).map fun x =>
        if gget mines x y = some true
        then (Core.mineBlock w h x y).count (j, i) else 0).sum).sum) := by
  unfold Core.calculate_neighbours
  rw [gget_outerFold, gget_replicate hi hj]
  simp

theorem sum_map_add (l : List α) (f g : α → Nat) :
    (l.map fun a => f a + g a).sum = (l.map f).sum + (l.map g).sum := by
  induction l with
  | nil => rfl
  | cons a l ih => simp only [List.map_cons, List.sum_cons, ih]; omega

theorem sum_map_single {n x : Nat} (hx : x < n) (C : Nat → Nat) :
    ((List.range n).map fun i => if i = x then C i else 0).sum = C x := by
  induction n with
  | zero => omega
  | succ n ih =>
    rw [List.range_succ, List.map_append, List.sum_append]
    rcases Nat.lt_or_ge x n with hlt | hge
    · rw [ih hlt]
      simp only [List.map_cons, List.map_nil, List.sum_cons, List.sum_nil]
      rw [if_neg (by omega)]
      omega
    · have hxn : x = n := by omega
      subst hxn
      have hz : ((List.range x).map fun i => if i = x then C i else 0).sum = 0 :=
        List.sum_eq_zero fun v hv => by
          obtain ⟨i, hi, rfl⟩ := List.mem_map.mp hv
          rw [if_neg (by have := List.mem_range.mp hi; omega)]
      rw [hz]
      simp

theorem calc_sum_eq_block (w h : Nat) (mines : List (List Bool)) (i j : Nat)
    (hi : i < w) (hj : j < h) :
    ((List.range h).map fun y => ((List.range w).map fun x =>
        if gget mines x y = some true
        then (Core.mineBlock w h x y).count (j, i) else 0).sum).sum
      = blockMineCount w h i j mines := by
  unfold blockMineCount
  refine congrArg List.sum (List.map_congr_left fun y hy => ?_)
  refine congrArg List.sum (List.map_congr_left fun x hx => ?_)
  rw [count_mineBlock]
  by_cases hm : gget mines x y = some true
  · rw [if_pos hm]
    split_ifs with h1 h2 h2
    · rfl
    · exact absurd ⟨hm, by omega⟩ h2
    · omega
    · rfl
  · rw [if_neg hm, if_neg (fun hc => hm hc.1)]

theorem block_eq_neighbor_add_center (w h x y : Nat) (mines : List (List Bool))
    (hx : x < w) (hy : y < h) :
    blockMineCount w h x y mines =
      neighborMineCount w h x y mines + (if gget mines x y = some true then 1 else 0) := by
  unfold blockMineCount neighborMineCount
  have hsplit : ∀ j ∈ List.range h, ((List.range w).map fun i =>
      if gget mines i j = some true ∧ (x ≤ i + 1 ∧ i ≤ x + 1 ∧ y ≤ j + 1 ∧ j ≤ y + 1)
      then 1 else 0).sum
    = ((List.range w).map fun i =>
        if gget mines i j = some true ∧ (x ≤ i + 1 ∧ i ≤ x + 1 ∧ y ≤ j + 1 ∧ j ≤ y + 1)
            ∧ ¬(i = x ∧ j = y)
        then 1 else 0).sum
      + ((List.range w).map fun i =>
          if i = x then (if j = y ∧ gget mines x y = some true then 1 else 0) else 0).sum := by
    intro j hj
    rw [← sum_map_add]
    refine congrArg List.sum (List.map_congr_left fun i hi => ?_)
    by_cases hc : i = x ∧ j = y
    · obtain ⟨rfl, rfl⟩ := hc
      have hns : i ≤ i + 1 ∧ i ≤ i + 1 ∧ j ≤ j + 1 ∧ j ≤ j + 1 := by omega
      rw [if_pos rfl, if_neg (show ¬(gget mines i j = some true ∧ _ ∧ ¬(i = i ∧ j = j)) from
        fun hcc => hcc.2.2 ⟨rfl, rfl⟩)]
      by_cases hm : gget mines i j = some true
      · rw [if_pos ⟨hm, hns⟩, if_pos ⟨rfl, hm⟩]
      · rw [if_neg (fun hcc => hm hcc.1), if_neg (fun hcc => hm hcc.2)]
    · have hiff : (gget mines i j = some true ∧
            (x ≤ i + 1 ∧ i ≤ x + 1 ∧ y ≤ j + 1 ∧ j ≤ y + 1) ∧ ¬(i = x ∧ j = y)) ↔
          (gget mines i j = some true ∧ (x ≤ i + 1 ∧ i ≤ x + 1 ∧ y ≤ j + 1 ∧ j ≤ y + 1)) := by
        constructor
        · exact fun hcc => ⟨hcc.1, hcc.2.1⟩
        · exact fun hcc => ⟨hcc.1, hcc.2, hc⟩
      have hzero : (if i = x then (if j = y ∧ gget mines x y = some true then 1 else 0) else 0)
          = 0 := by
        by_cases hix : i = x
        · have hjy : ¬ j = y := fun hjy => hc ⟨hix, hjy⟩
          rw [if_pos hix, if_neg (fun hcc => hjy hcc.1)]
        · rw [if_neg hix]
      rw [hzero, if_congr hiff rfl rfl]
      omega
  rw [List.map_congr_left hsplit, sum_map_add]
  congr 1
  have hinner : ∀ j ∈ List.range h, ((List.range w).map fun i =>
      if i = x then (if j = y ∧ gget mines x y = some true then 1 else 0) else 0).sum
      = if j = y then (if gget mines x y = some true then 1 else 0) else 0 := by
    intro j hj
    rw [sum_map_single hx]
    by_cases hjy : j = y
    · subst hjy; simp
    · simp [hjy]
  rw [List.map_congr_left hinner, sum_map_single hy]

theorem gmodify_length (g : List (List α)) (x y : Nat) (f : α → α) :
    (gmodify g x y f).length = g.length := by
  induction g generalizing y with
  | nil => simp [gmodify]
  | cons row rs ih =>
    cases y with
    | zero => simp [gmodify]
    | succ y => simp [gmodify, ih]

theorem gmodify_mem (g : List (List α)) (x y : Nat) (f : α → α) {row : List α}
    (hrow : row ∈ gmodify g x y f) : row ∈ g ∨ ∃ r ∈ g, row = r.modify f x := by
  induction g generalizing y with
  | nil => simp [gmodify] at hrow
  | cons r rs ih =>
    cases y with
    | zero =>
      rcases List.mem_cons.mp hrow with h1 | h2
      · exact Or.inr ⟨r, by simp, h1⟩
      · exact Or.inl (by simp [h2])
    | succ y =>
      rcases List.mem_cons.mp hrow with h1 | h2
      · exact Or.inl (by simp [h1])
      · rcases ih y h2 with h3 | ⟨r', hr', he⟩
        · exact Or.inl (by simp [h3])
        · exact Or.inr ⟨r', by simp [hr'], he⟩

theorem gridDims_gmodify {g : List (List α)} {w h : Nat} (hd : gridDims g w h)
    (x y : Nat) (f : α → α) : gridDims (gmodify g x y f) w h := by
  obtain ⟨hlen, hrows⟩ := hd
  refine ⟨by rw [gmodify_length]; exact hlen, fun row hrow => ?_⟩
  rcases gmodify_mem g x y f hrow with h1 | ⟨r, hr, he⟩
  · exact hrows row h1
  · rw [he, List.length_modify]; exact hrows r hr

theorem gridDims_foldl {β : Type} {w h : Nat} (step : List (List α) → β → List (List α))
    (hstep : ∀ g b, gridDims g w h → gridDims (step g b) w h) :
    ∀ (l : List β) (g : List (List α)), gridDims g w h → gridDims (l.foldl step g) w h := by
  intro l
  induction l with
  | nil => exact fun g hg => hg
  | cons b l ih => exact fun g hg => ih (step g b) (hstep g b hg)

theorem gridDims_bump {w h : Nat} (x y : Nat) {g : List (List Nat)} (hd : gridDims g w h) :
    gridDims (Core.bump w h x y g) w h :=
  gridDims_foldl _ (fun g p hg => gridDims_gmodify hg p.2 p.1 _) (Core.mineBlock w h x y) g hd

theorem gridDims_calculate_neighbours (w h : Nat) (mines : List (List Bool)) :
    gridDims (Core.calculate_neighbours w h mines) w h := by
  unfold Core.calculate_neighbours
  refine gridDims_foldl _ (fun g y hg => ?_) (List.range h) _ (gridDims_replicate w h 0)
  refine gridDims_foldl _ (fun g x hg => ?_) (List.range w) g hg
  split
  · exact gridDims_bump x y hg
  · exact hg

/-! ## The first probe: Game::open from state New -/

theorem openCell_new_spec (g : Core.Game) (x y : Nat)
    (hstate : g.state = .New)
    (hx : x < g.width) (hy : y < g.height)
    (hdims : gridDims (g.randomizer g.width g.height g.num_mines x y) g.width g.height)
    (hsafe : gget (g.randomizer g.width g.height g.num_mines x y) x y = some false) :
    ∃ g' n, g.openCell x y = some (g', .ok ⟨g'.state, .Clear n⟩) ∧
      g'.state = (if g.width * g.height - g.num_mines - 1 = 0
                  then Core.GameState.Won else Core.GameState.Playing) ∧
      g'.width = g.width ∧ g'.height = g.height ∧ g'.num_mines = g.num_mines := by
  obtain ⟨n, hn⟩ := gget_isSome_of_dims (gridDims_calculate_neighbours g.width g.height
    (g.randomizer g.width g.height g.num_mines x y)) hx hy
  unfold Core.Game.openCell
  rw [if_neg (by omega)]
  simp only [hstate]
  unfold Core.Game.generate_board Core.Game.openPlaying
  simp only
  rw [gget_replicate hx hy]
  simp only [Option.some_bind]
  rw [if_neg (by simp : ¬(false = true)), hsafe]
  simp only [Option.some_bind]
  rw [if_neg (by simp : ¬(false = true))]
  rw [apply_ite Core.Game.neighbours]
  simp only [ite_self]
  rw [hn]
  refine ⟨_, n, rfl, ?_, ?_, ?_, ?_⟩ <;>
    by_cases hwon : g.width * g.height - g.num_mines - 1 = 0 <;>
    simp [hwon]

/-! ## Claim theorems for the rules engine -/

/-- Claim C1 (code bug): `Game::new(width, height, mine_count)` and
`Game::reset(width, height, mine_count)` are supposed to produce the same configuration,
with `width()` returning `width` and `height()` returning `height`. The source's `new`
forwards its arguments to `new_with` swapped (`Self::new_with(height, width, ...)`), so
on the non-square configuration (5, 4, 10) `new` yields `width() = 4, height() = 5`
while `reset` yields `width() = 5, height() = 4`. -/
theorem C1_new_swaps_dimensions_reset_does_not :
    ((Core.Game.new 5 4 10 fun _ _ => 0).map fun g => (g.width, g.height)) = some (4, 5) ∧
    ((Core.Game.new_with 5 4 10 Core.dummy_randomizer).map fun g =>
        ((g.reset 5 4 10).width, (g.reset 5 4 10).height)) = some (5, 4) :=
  ⟨rfl, rfl⟩

/-- Claim C2: for every valid configuration (1 ≤ mine_count ≤ width*height - 1) and
every in-bounds safe coordinate, default_randomizer returns a width-by-height grid with
exactly mine_count mines and no mine at the safe coordinate, for every draw stream that
respects the gen_range bound. -/
theorem C2_default_randomizer_exact_and_safe (w h m fx fy : Nat) (rng : Nat → Nat → Nat)
    (hw : 1 ≤ w) (hh : 1 ≤ h) (hm1 : 1 ≤ m) (hm2 : m ≤ w * h - 1)
    (hfx : fx < w) (hfy : fy < h) (hrng : ∀ k b, 0 < b → rng k b < b) :
    ∃ grid, Core.default_randomizer w h m fx fy rng = some grid ∧
      gridDims grid w h ∧ gcountP (fun b => b) grid = m ∧ gget grid fx fy = some false :=
  default_randomizer_spec w h m fx fy rng hm1 hm2 hfx hfy hrng

/-- Witness for C2 at the concrete configuration (2, 2, 2), safe cell (0, 0), and the
all-zero draw stream. -/
theorem C2_witness :
    ∃ grid, Core.default_randomizer 2 2 2 0 0 (fun _ _ => 0) = some grid ∧
      gridDims grid 2 2 ∧ gcountP (fun b => b) grid = 2 ∧ gget grid 0 0 = some false :=
  C2_default_randomizer_exact_and_safe 2 2 2 0 0 (fun _ _ => 0)
    (by decide) (by decide) (by decide) (by decide) (by decide) (by decide)
    (fun k b hb => hb)

/-- Claim C4 counterexample: on the 2-by-1 grid with a mine at (0, 0), the stored
neighbour count at the mine cell (0, 0) is 1, but the count of mines among its
surrounding cells (the cell itself not counted, as the claim demands for mine cells
too) is 0: calculate_neighbours counts the mine cell itself. -/
theorem C4_counterexample :
    gget (Core.calculate_neighbours 2 1 [[true, false]]) 0 0 = some 1 ∧
      neighborMineCount 2 1 0 0 [[true, false]] = 0 := by
  constructor <;> rfl

/-- Claim C4 (amended): for every mine grid and every cell of the board,
NeighborCounts[y][x] equals the number of mines in the whole 3-by-3 Chebyshev block
centered at (x, y), the cell itself included; hence on every non-mine cell it equals
the number of mines among the up-to-8 surrounding cells as originally claimed, while
on a mine cell it exceeds that count by one. -/
theorem C4_neighbour_counts_include_center (w h : Nat) (mines : List (List Bool))
    (hdims : gridDims mines w h) (x y : Nat) (hx : x < w) (hy : y < h) :
    gget (Core.calculate_neighbours w h mines) x y =
      some (neighborMineCount w h x y mines +
        (if gget mines x y = some true then 1 else 0)) ∧
    (gget mines x y = some false →
      gget (Core.calculate_neighbours w h mines) x y =
        some (neighborMineCount w h x y mines)) := by
  have h1 := gget_calculate_neighbours w h mines x y hx hy
  rw [calc_sum_eq_block w h mines x y hx hy,
      block_eq_neighbor_add_center w h x y mines hx hy] at h1
  refine ⟨h1, fun hsafe => ?_⟩
  rw [h1, if_neg (by simp [hsafe])]
  simp

/-- Witness for C4 on the concrete 2-by-1 grid with a mine at (0, 0), at cell (1, 0). -/
theorem C4_witness :
    gget (Core.calculate_neighbours 2 1 [[true, false]]) 1 0 =
      some (neighborMineCount 2 1 1 0 [[true, false]] +
        (if gget [[true, false]] 1 0 = some true then 1 else 0)) ∧
    (gget [[true, false]] 1 0 = some false →
      gget (Core.calculate_neighbours 2 1 [[true, false]]) 1 0 =
        some (neighborMineCount 2 1 1 0 [[true, false]])) :=
  C4_neighbour_counts_include_center 2 1 [[true, false]]
    ⟨rfl, by intro row hrow; simp at hrow; rw [hrow]; rfl⟩ 1 0 (by decide) (by decide)

/-- Claim C5 counterexample: on the valid configuration width 2, height 1,
mine_count 1 = width*height - 1, the first probe (state New) at the in-bounds safe
coordinate (1, 0) returns a result whose state is Won, not Playing — the claim says
the first probe never yields Won. The board is generated by default_randomizer itself
(under the all-zero draw stream), which is forced to put its one mine at (0, 0). -/
theorem C5_counterexample :
    (((Core.Game.new_with 2 1 1 (Core.defaultR fun _ _ => 0)).bind fun g =>
        g.openCell 1 0).map fun p => p.1.state) = some Core.GameState.Won ∧
    (((Core.Game.new_with 2 1 1 (Core.defaultR fun _ _ => 0)).bind fun g =>
        g.openCell 1 0).map fun p => p.1.state) ≠ some Core.GameState.Playing := by
  refine ⟨rfl, fun hcc => ?_⟩
  rw [show (((Core.Game.new_with 2 1 1 (Core.defaultR fun _ _ => 0)).bind fun g =>
        g.openCell 1 0).map fun p => p.1.state) = some Core.GameState.Won from rfl] at hcc
  simp at hcc

/-- Claim C5 (amended): for every valid configuration and every in-bounds coordinate,
opening from state New returns Ok with a Clear cell; the resulting state is never Lost;
it is Won exactly when mine_count = width*height - 1, and Playing otherwise. The
hypotheses on `g.randomizer` are the board-generator guarantees of claim C2 at the
probed instance: a width-by-height grid whose safe cell holds no mine. -/
theorem C5_first_probe_never_lost_won_iff_full (g : Core.Game) (x y : Nat)
    (hstate : g.state = .New)
    (hw : 1 ≤ g.width) (hh : 1 ≤ g.height) (hm1 : 1 ≤ g.num_mines)
    (hm2 : g.num_mines ≤ g.width * g.height - 1)
    (hx : x < g.width) (hy : y < g.height)
    (hdims : gridDims (g.randomizer g.width g.height g.num_mines x y) g.width g.height)
    (hsafe : gget (g.randomizer g.width g.height g.num_mines x y) x y = some false) :
    ∃ g' n, g.openCell x y = some (g', .ok ⟨g'.state, .Clear n⟩) ∧
      g'.state ≠ .Lost ∧
      (g'.state = .Won ↔ g.num_mines = g.width * g.height - 1) ∧
      (g'.state = .Playing ∨ g'.state = .Won) := by
  obtain ⟨g', n, hopen, hst, hwidth, hheight, hnum⟩ :=
    openCell_new_spec g x y hstate hx hy hdims hsafe
  refine ⟨g', n, hopen, ?_, ?_, ?_⟩
  · rw [hst]; split <;> simp
  · rw [hst]
    constructor
    · intro hcc
      by_cases hwon : g.width * g.height - g.num_mines - 1 = 0
      · omega
      · rw [if_neg hwon] at hcc; cases hcc
    · intro hcc
      rw [if_pos (by omega)]
  · rw [hst]; split
    · exact Or.inr rfl
    · exact Or.inl rfl

/-- Witness for C5 (amended) on a fresh 3-by-2 game with 2 mines, probing (0, 0),
with the deterministic row-major dummy_randomizer from the source's tests standing in
for the board generator (its grid is 3-by-2 with mines at (0, 0)... no: at flat cells 0
and 1, so the probed safe cell must avoid them; we probe (2, 1)). -/
theorem C5_witness :
    ∃ g' n, (Core.Game.mkTest5).openCell 2 1 = some (g', .ok ⟨g'.state, .Clear n⟩) ∧
      g'.state ≠ .Lost ∧
      (g'.state = .Won ↔ Core.Game.mkTest5.num_mines =
        Core.Game.mkTest5.width * Core.Game.mkTest5.height - 1) ∧
      (g'.state = .Playing ∨ g'.state = .Won) :=
  C5_first_probe_never_lost_won_iff_full Core.Game.mkTest5 2 1 rfl
    (by decide) (by decide) (by decide) (by decide) (by decide) (by decide)
    (by constructor <;> decide) (by decide)

/-- Claim C8 counterexample: get_cell does panic on an out-of-bounds coordinate once
the state is Playing — on a 3-by-1 board after one probe, `get_cell(5, 0)` indexes
`opened[0][5]` out of bounds (`none` is the index panic). The claim asserted get_cell
returns a value without panicking in every state. -/
theorem C8_counterexample :
    (((Core.Game.new_with 3 1 1 Core.dummy_randomizer).bind fun g =>
        g.openCell 2 0).map fun p => (p.1.state, p.1.get_cell 5 0)) =
      some (Core.GameState.Playing, none) := by
  rfl

/-- Claim C8 (amended): for every game state and every out-of-bounds coordinate,
`open` returns the OutOfBounds error before inspecting any other state (leaving the
game untouched), and `get_cell` returns Hidden without panicking while the state is
New; in the other states an out-of-bounds `get_cell` panics on the grid index. -/
theorem C8_oob_open_first_class_get_cell_new_only (g : Core.Game) (x y : Nat)
    (hxy : g.width ≤ x ∨ g.height ≤ y) :
    g.openCell x y = some (g, .error .OutOfBounds) ∧
      (g.state = .New → g.get_cell x y = some .Hidden) := by
  constructor
  · unfold Core.Game.openCell
    rw [if_pos hxy]
  · intro hs
    unfold Core.Game.get_cell
    rw [hs]

/-- Witness for C8 (amended) on a concrete fresh 3-by-1 game at coordinate (5, 0). -/
theorem C8_witness :
    (Core.Game.mkTest8).openCell 5 0 = some (Core.Game.mkTest8, .error .OutOfBounds) ∧
      (Core.Game.mkTest8.state = .New → Core.Game.mkTest8.get_cell 5 0 = some .Hidden) :=
  C8_oob_open_first_class_get_cell_new_only Core.Game.mkTest8 5 0 (Or.inl (by decide))

/-! ## Neighbour lists, enumeration and traversal lemmas -/

namespace Overlay

theorem neighboursList_length_le (w h x y : Nat) : (neighboursList w h x y).length ≤ 9 := by
  unfold neighboursList
  rw [List.length_flatMap]
  have hrow : ∀ yn ∈ List.range' (y - 1) (min h (y + 2) - (y - 1)),
      ((List.range' (x - 1) (min w (x + 2) - (x - 1))).filterMap fun xn =>
        if xn = x ∧ yn = y then none else some (xn, yn)).length ≤ 3 := by
    intro yn hyn
    calc ((List.range' (x - 1) (min w (x + 2) - (x - 1))).filterMap fun xn =>
            if xn = x ∧ yn = y then none else some (xn, yn)).length
        ≤ (List.range' (x - 1) (min w (x + 2) - (x - 1))).length :=
          List.length_filterMap_le _ _
      _ ≤ 3 := by rw [List.length_range']; omega
  calc (List.map (List.length ∘ fun yn =>
          (List.range' (x - 1) (min w (x + 2) - (x - 1))).filterMap fun xn =>
            if xn = x ∧ yn = y then none else some (xn, yn))
          (List.range' (y - 1) (min h (y + 2) - (y - 1)))).sum
      ≤ (List.map (fun _ => 3)
          (List.range' (y - 1) (min h (y + 2) - (y - 1)))).sum := by
        apply List.sum_le_sum
        intro yn hyn
        exact hrow yn hyn
    _ ≤ 9 := by
        rw [List.map_const', List.sum_replicate, List.length_range']
        have : min h (y + 2) - (y - 1) ≤ 3 := by omega
        calc (min h (y + 2) - (y - 1)) • 3 = (min h (y + 2) - (y - 1)) * 3 := rfl
          _ ≤ 3 * 3 := by omega
          _ = 9 := rfl

theorem neighboursList_mem {w h x y : Nat} {p : Nat × Nat}
    (hp : p ∈ neighboursList w h x y) :
    p.1 < w ∧ p.2 < h ∧ (x ≤ p.1 + 1 ∧ p.1 ≤ x + 1 ∧ y ≤ p.2 + 1 ∧ p.2 ≤ y + 1) ∧
      ¬(p.1 = x ∧ p.2 = y) := by
  unfold neighboursList at hp
  rw [List.mem_flatMap] at hp
  obtain ⟨yn, hyn, hp⟩ := hp
  rw [List.mem_filterMap] at hp
  obtain ⟨xn, hxn, hif⟩ := hp
  rw [List.mem_range'_1] at hyn hxn
  by_cases hc : xn = x ∧ yn = y
  · rw [if_pos hc] at hif; cases hif
  · rw [if_neg hc] at hif
    obtain rfl : p = (xn, yn) := by exact (Option.some.inj hif).symm
    refine ⟨by omega, by omega, by omega, by simpa using hc⟩

theorem enumFrom_getElem? (k : Nat) (l : List α) (i : Nat) :
    (enumFrom k l)[i]? = (l[i]?).map fun a => (k + i, a) := by
  induction l generalizing k i with
  | nil => simp [enumFrom]
  | cons a l ih =>
    cases i with
    | zero => simp [enumFrom]
    | succ i =>
      simp only [enumFrom, List.getElem?_cons_succ, ih (k + 1) i]
      cases l[i]? <;> simp <;> omega

theorem enumFrom_length : ∀ (l : List α) (k : Nat), (enumFrom k l).length = l.length := by
  intro l
  induction l with
  | nil => intro k; rfl
  | cons a l ih => intro k; simp [enumFrom, ih]

theorem listTraverse_spec {f : α → Option β} : ∀ {l : List α} {l' : List β},
    listTraverse f l = some l' →
    l'.length = l.length ∧
      ∀ (i : Nat) (b : β), l'[i]? = some b → ∃ a, l[i]? = some a ∧ f a = some b := by
  intro l
  induction l with
  | nil =>
    intro l' hl'
    obtain rfl : l' = [] := by simpa [listTraverse] using hl'.symm
    exact ⟨rfl, by intro i b hb; simp at hb⟩
  | cons a l ih =>
    intro l' hl'
    simp only [listTraverse] at hl'
    cases hfa : f a with
    | none => rw [hfa] at hl'; cases hl'
    | some b =>
      rw [hfa] at hl'
      simp only [Option.some_bind] at hl'
      cases hrest : listTraverse f l with
      | none => rw [hrest] at hl'; cases hl'
      | some bl =>
        rw [hrest] at hl'
        obtain rfl : l' = b :: bl := by simpa using hl'.symm
        obtain ⟨hlen, hpt⟩ := ih hrest
        refine ⟨by simp [hlen], ?_⟩
        intro i c hc
        cases i with
        | zero =>
          refine ⟨a, by simp, ?_⟩
          rw [hfa]
          simpa using hc
        | succ i =>
          obtain ⟨a', ha', hfa'⟩ := hpt i c (by simpa using hc)
          exact ⟨a', by simpa using ha', hfa'⟩

theorem listTraverse_some {f : α → Option β} : ∀ {l : List α},
    (∀ a ∈ l, ∃ b, f a = some b) → ∃ l', listTraverse f l = some l' := by
  intro l
  induction l with
  | nil => exact fun _ => ⟨[], rfl⟩
  | cons a l ih =>
    intro hall
    obtain ⟨b, hb⟩ := hall a (by simp)
    obtain ⟨bl, hbl⟩ := ih (fun a' ha' => hall a' (by simp [ha']))
    exact ⟨b :: bl, by simp [listTraverse, hb, hbl]⟩

theorem enumFrom_mem {k : Nat} {l : List α} {p : Nat × α} (hp : p ∈ enumFrom k l) :
    k ≤ p.1 ∧ l[p.1 - k]? = some p.2 := by
  induction l generalizing k with
  | nil => simp [enumFrom] at hp
  | cons a l ih =>
    rcases List.mem_cons.mp hp with h1 | h2
    · subst h1; simp
    · obtain ⟨hk, hget⟩ := ih h2
      refine ⟨by omega, ?_⟩
      have : p.1 - k = (p.1 - (k + 1)) + 1 := by omega
      rw [this, List.getElem?_cons_succ]
      exact hget

end Overlay

theorem gcountP_gset {g : List (List α)} {x y : Nat} {a : α} (hget : gget g x y = some a)
    (b : α) (p : α → Bool) :
    gcountP p (gset g x y b) + (if p a then 1 else 0) =
      gcountP p g + (if p b then 1 else 0) := by
  induction g generalizing y with
  | nil => simp [gget] at hget
  | cons row rs ih =>
    cases y with
    | zero =>
      have hrow : row[x]? = some a := by simpa [gget] using hget
      have := countP_set_of_getElem hrow b p
      simp only [gset, gcountP, List.map_cons, List.sum_cons]
      omega
    | succ y =>
      have hget' : gget rs x y = some a := by simpa [gget] using hget
      have := ih hget'
      simp only [gset, gcountP, List.map_cons, List.sum_cons]
      simp only [gcountP] at this
      omega

theorem countP_le_of_pointwise (p : α → Bool) : ∀ (l' l : List α),
    l'.length = l.length →
    (∀ (i : Nat) (b : α), l'[i]? = some b → p b = true → ∃ a, l[i]? = some a ∧ p a = true) →
    l'.countP p ≤ l.countP p := by
  intro l'
  induction l' with
  | nil => intro l _ _; simp
  | cons b l' ih =>
    intro l hlen hpt
    cases l with
    | nil => simp at hlen
    | cons a l =>
      have htail : l'.countP p ≤ l.countP p := by
        refine ih l (by simpa using hlen) ?_
        intro i c hc hp
        obtain ⟨a', ha', hpa'⟩ := hpt (i + 1) c (by simpa using hc) hp
        exact ⟨a', by simpa using ha', hpa'⟩
      simp only [List.countP_cons]
      by_cases hpb : p b = true
      · obtain ⟨a', ha', hpa'⟩ := hpt 0 b (by simp) hpb
        have ha2 : a = a' := by simpa using ha'
        subst ha2
        simp [hpb, hpa']
        omega
      · simp [hpb]
        split <;> omega

theorem gcountP_le_of_rows (p : α → Bool) : ∀ (b bd : List (List α)),
    b.length = bd.length →
    (∀ (y : Nat) (rb rd : List α), b[y]? = some rb → bd[y]? = some rd →
      rb.countP p ≤ rd.countP p) →
    gcountP p b ≤ gcountP p bd := by
  intro b
  induction b with
  | nil => intro bd _ _; simp [gcountP]
  | cons rb b ih =>
    intro bd hlen hrows
    cases bd with
    | nil => simp at hlen
    | cons rd bd =>
      have h0 : rb.countP p ≤ rd.countP p := hrows 0 rb rd (by simp) (by simp)
      have htail : gcountP p b ≤ gcountP p bd := by
        refine ih bd (by simpa using hlen) ?_
        intro y rb' rd' hb' hd'
        exact hrows (y + 1) rb' rd' (by simpa using hb') (by simpa using hd')
      simp only [gcountP, List.map_cons, List.sum_cons]
      simp only [gcountP] at htail
      omega

namespace Overlay

theorem queryCell_hidden_mono {g : Game} {x y : Nat} {c c' : Cell}
    (h : queryCell g x y c = some c') (hh : c'.isHidden = true) : c.isHidden = true := by
  unfold queryCell at h
  by_cases h1 : c = Cell.Hidden
  · rw [h1]; rfl
  · rw [if_neg h1] at h
    by_cases h2 : c = Cell.Flag
    · rw [if_pos h2] at h
      cases hrc : Core.Game.get_cell g.rules x y with
      | none => rw [hrc] at h; cases h
      | some rc =>
        rw [hrc] at h
        simp only [Option.map_some'] at h
        obtain rfl := Option.some.inj h
        by_cases h3 : rc.is_clear <;> simp [h3, Cell.isHidden] at hh
    · rw [if_neg h2] at h
      obtain rfl := Option.some.inj h
      exact hh

theorem queryRows_spec {g : Game} {b : List (List Cell)} (hq : queryRows g = some b) :
    b.length = g.board.length ∧
    (∀ (y : Nat) (rb : List Cell), b[y]? = some rb →
      ∃ row, g.board[y]? = some row ∧ rb.length = row.length) ∧
    (∀ (x y : Nat) (c' : Cell), gget b x y = some c' →
      ∃ c, gget g.board x y = some c ∧ queryCell g x y c = some c') := by
  unfold queryRows at hq
  obtain ⟨hlen, hpt⟩ := listTraverse_spec hq
  have hlen' : b.length = g.board.length := by
    rw [hlen, enumFrom_length]
  have hrows : ∀ (y : Nat) (rb : List Cell), b[y]? = some rb →
      ∃ row, g.board[y]? = some row ∧ rb.length = row.length ∧
        listTraverse (fun q => queryCell g q.1 y q.2) (enumFrom 0 row) = some rb := by
    intro y rb hrb
    obtain ⟨pa, hpa, hfa⟩ := hpt y rb hrb
    rw [enumFrom_getElem? 0 g.board y] at hpa
    cases hrow : g.board[y]? with
    | none => rw [hrow] at hpa; cases hpa
    | some row =>
      rw [hrow] at hpa
      simp only [Option.map_some'] at hpa
      obtain rfl := Option.some.inj hpa
      simp only [Nat.zero_add] at hfa
      obtain ⟨hlen2, _⟩ := listTraverse_spec hfa
      refine ⟨row, rfl, ?_, hfa⟩
      rw [hlen2, enumFrom_length]
  refine ⟨hlen', fun y rb hrb => ?_, fun x y c' hc' => ?_⟩
  · obtain ⟨row, h1, h2, _⟩ := hrows y rb hrb
    exact ⟨row, h1, h2⟩
  · unfold gget at hc'
    cases hrb : b[y]? with
    | none => rw [hrb] at hc'; cases hc'
    | some rb =>
      rw [hrb] at hc'
      simp only [Option.some_bind] at hc'
      obtain ⟨row, hrow, _, htrav⟩ := hrows y rb hrb
      obtain ⟨_, hpt2⟩ := listTraverse_spec htrav
      obtain ⟨q, hq2, hfq⟩ := hpt2 x c' hc'
      rw [enumFrom_getElem? 0 row x] at hq2
      cases hcx : row[x]? with
      | none => rw [hcx] at hq2; cases hq2
      | some c =>
        rw [hcx] at hq2
        simp only [Option.map_some'] at hq2
        obtain rfl := Option.some.inj hq2
        simp only [Nat.zero_add] at hfq
        exact ⟨c, by simp [gget, hrow, hcx], hfq⟩

theorem query_board_frame {g g' : Game} (h : g.query_board = some g') :
    hiddenCount g' ≤ hiddenCount g ∧ g'.rules = g.rules ∧ g'.timer = g.timer ∧
      g'.settings = g.settings ∧ g'.mines_remaining = g.mines_remaining ∧
      ∃ b, queryRows g = some b ∧ g'.board = b := by
  unfold Game.query_board at h
  have hmain : ∀ b, queryRows g = some b → g' = { g with board := b } →
      hiddenCount g' ≤ hiddenCount g := by
    intro b hb hg'
    obtain ⟨hlen, hrows, hpt⟩ := queryRows_spec hb
    subst hg'
    show gcountP Cell.isHidden b ≤ gcountP Cell.isHidden g.board
    refine gcountP_le_of_rows Cell.isHidden b g.board hlen ?_
    intro y rb rd hrb hrd
    obtain ⟨row, hrow, hlen2⟩ := hrows y rb hrb
    have hrd2 : rd = row := by rw [hrow] at hrd; exact (Option.some.inj hrd).symm
    rw [hrd2]
    refine countP_le_of_pointwise Cell.isHidden rb row hlen2 ?_
    intro i c' hc' hpc'
    obtain ⟨c, hc, hqc⟩ := hpt i y c' (by simp [gget, hrb, hc'])
    have hcx : row[i]? = some c := by
      unfold gget at hc
      rw [hrow] at hc
      simpa using hc
    exact ⟨c, hcx, queryCell_hidden_mono hqc hpc'⟩
  cases hst : g.state with
  | Won =>
    rw [hst] at h
    cases hb : queryRows g with
    | none => rw [hb] at h; cases h
    | some b =>
      rw [hb] at h
      obtain rfl : { g with board := b } = g' := by simpa using h
      exact ⟨hmain b hb rfl, rfl, rfl, rfl, rfl, b, rfl, rfl⟩
  | Lost =>
    rw [hst] at h
    cases hb : queryRows g with
    | none => rw [hb] at h; cases h
    | some b =>
      rw [hb] at h
      obtain rfl : { g with board := b } = g' := by simpa using h
      exact ⟨hmain b hb rfl, rfl, rfl, rfl, rfl, b, rfl, rfl⟩
  | New => rw [hst] at h; cases h
  | Playing => rw [hst] at h; cases h

end Overlay

namespace Overlay

theorem hiddenCount_gset_le {g : Game} {x y : Nat}
    (hxy : gget g.board x y = some Cell.Hidden) (c : Cell) :
    hiddenCount { g with board := gset g.board x y c } ≤ hiddenCount g := by
  have h := gcountP_gset hxy c Cell.isHidden
  show gcountP Cell.isHidden (gset g.board x y c) ≤ gcountP Cell.isHidden g.board
  simp only [Cell.isHidden, if_pos] at h
  split at h <;> omega

theorem hiddenCount_gset_succ {g : Game} {x y : Nat}
    (hxy : gget g.board x y = some Cell.Hidden) {c : Cell} (hc : c.isHidden = false) :
    hiddenCount { g with board := gset g.board x y c } + 1 = hiddenCount g := by
  have h := gcountP_gset hxy c Cell.isHidden
  show gcountP Cell.isHidden (gset g.board x y c) + 1 = gcountP Cell.isHidden g.board
  rw [hc] at h
  simp only [Cell.isHidden, if_pos] at h
  simpa using h

theorem hiddenCount_startTimer (g : Game) :
    hiddenCount (if g.state = Core.GameState.New
      then { g with timer := g.timer.start } else g) = hiddenCount g := by
  split <;> rfl

theorem run_hidden_mono : ∀ (fuel : Nat),
    (∀ g x y g' r, run fuel (.openT g x y) = .done g' r → hiddenCount g' ≤ hiddenCount g) ∧
    (∀ g l g' r, run fuel (.neighT g l) = .done g' r → hiddenCount g' ≤ hiddenCount g) := by
  intro fuel
  induction fuel with
  | zero => exact ⟨fun g x y g' r h => (nomatch h), fun g l g' r h => nomatch h⟩
  | succ fuel ih =>
    obtain ⟨ihOpen, ihNeigh⟩ := ih
    constructor
    · intro g x y g' r h
      simp only [run] at h
      split at h
      · cases h
        exact Nat.le_refl _
      · revert h
        rw [← hiddenCount_startTimer g]
        generalize (if g.state = Core.GameState.New
          then { g with timer := g.timer.start } else g) = g₀
        intro h
        split at h
        · cases h
          exact Nat.le_refl _
        · split at h
          · cases h
          · cases h
            exact Nat.le_refl _
          · cases h
            exact Nat.le_refl _
          · rename_i hb
            split at h
            · cases h
            · cases h
            · rename_i rules info hrules
              split at h
              · -- info.state = Playing
                have hle : hiddenCount { { g₀ with rules := rules } with
                    board := gset g₀.board x y (cellFrom info.cell) } ≤ hiddenCount g₀ :=
                  hiddenCount_gset_le (g := { g₀ with rules := rules }) hb (cellFrom info.cell)
                split at h
                · split at h
                  · cases h
                  · cases h
                  · rename_i g₃ r₃ hrun
                    cases h
                    exact Nat.le_trans (ihNeigh _ _ _ _ hrun) hle
                · cases h
                  exact hle
              · -- terminal result of the rules engine
                by_cases hm : info.cell = Core.Cell.Mine
                · rw [if_pos hm] at h
                  split at h
                  · cases h
                  · rename_i gq hq
                    cases h
                    refine Nat.le_trans (query_board_frame hq).1 ?_
                    exact hiddenCount_gset_le (g := { g₀ with rules := rules }) hb _
                · rw [if_neg hm] at h
                  split at h
                  · cases h
                  · rename_i gq hq
                    cases h
                    exact (query_board_frame hq).1
          · cases h
    · intro g l g' r h
      match l with
      | [] =>
        simp only [run] at h
        cases h
        exact Nat.le_refl _
      | (xn, yn) :: rest =>
        simp only [run] at h
        split at h
        · cases h
        · rename_i c hc
          split at h
          · split at h
            · cases h
            · cases h
            · rename_i g₁ e hrun₁
              cases h
              exact ihOpen _ _ _ _ _ hrun₁
            · rename_i g₁ u hrun₁
              have h1 : hiddenCount g₁ ≤ hiddenCount g := ihOpen _ _ _ _ _ hrun₁
              split at h
              · cases h
              · split at h
                · cases h
                  exact h1
                · exact Nat.le_trans (ihNeigh _ _ _ _ h) h1
          · split at h
            · cases h
              exact Nat.le_refl _
            · exact ihNeigh _ _ _ _ h

theorem run_no_out : ∀ (fuel : Nat),
    (∀ g x y, 10 * hiddenCount g < fuel → run fuel (.openT g x y) ≠ .out) ∧
    (∀ g l, 10 * hiddenCount g + l.length < fuel → run fuel (.neighT g l) ≠ .out) := by
  intro fuel
  induction fuel with
  | zero => exact ⟨fun g x y hf => absurd hf (by omega), fun g l hf => absurd hf (by omega)⟩
  | succ fuel ih =>
    obtain ⟨ihOpen, ihNeigh⟩ := ih
    constructor
    · intro g x y hfuel h
      simp only [run] at h
      split at h
      · cases h
      · rw [← hiddenCount_startTimer g] at hfuel
        revert hfuel h
        generalize (if g.state = Core.GameState.New
          then { g with timer := g.timer.start } else g) = g₀
        intro hfuel h
        split at h
        · cases h
        · split at h
          · cases h
          · cases h
          · cases h
          · rename_i hb
            split at h
            · cases h
            · cases h
            · rename_i rules info hrules
              split at h
              · split at h
                · rename_i hclear
                  have hsucc :
                      hiddenCount
                        ({ rules := rules,
                           timer := g₀.timer,
                           board := gset g₀.board x y (cellFrom info.cell),
                           settings := g₀.settings,
                           mines_remaining := g₀.mines_remaining } : Game) + 1 =
                        hiddenCount g₀ :=
                    hiddenCount_gset_succ (g := { g₀ with rules := rules }) hb
                      (by rw [hclear]; rfl)
                  have hlen :
                      (neighboursList
                        ({ rules := rules,
                           timer := g₀.timer,
                           board := gset g₀.board x y (cellFrom info.cell),
                           settings := g₀.settings,
                           mines_remaining := g₀.mines_remaining } : Game).width
                        ({ rules := rules,
                           timer := g₀.timer,
                           board := gset g₀.board x y (cellFrom info.cell),
                           settings := g₀.settings,
                           mines_remaining := g₀.mines_remaining } : Game).height
                        x y).length ≤ 9 := neighboursList_length_le _ _ _ _
                  split at h
                  · rename_i hrun
                    exact ihNeigh _ _ (by omega) hrun
                  · cases h
                  · cases h
                · cases h
              · split at h
                · cases h
                · cases h
          · cases h
    · intro g l hfuel h
      match l with
      | [] =>
        simp only [run] at h
        cases h
      | (xn, yn) :: rest =>
        simp only [List.length_cons] at hfuel
        simp only [run] at h
        split at h
        · cases h
        · rename_i c hc
          split at h
          · split at h
            · rename_i hrun
              exact ihOpen _ _ _ (by omega) hrun
            · cases h
            · cases h
            · rename_i g₁ u hrun₁
              have h₁ : hiddenCount g₁ ≤ hiddenCount g :=
                (run_hidden_mono fuel).1 _ _ _ _ _ hrun₁
              split at h
              · cases h
              · split at h
                · cases h
                · exact ihNeigh _ _ (by omega) h
          · split at h
            · cases h
            · exact ihNeigh _ _ (by omega) h

theorem gget_gset_open_stable {g : List (List Cell)} {x y : Nat}
    (hb : gget g x y = some Cell.Hidden) (c : Cell) {u v n : Nat}
    (hn : gget g u v = some (Cell.Open n)) :
    gget (gset g x y c) u v = some (Cell.Open n) := by
  rw [gget_gset]
  split
  · rename_i hxy
    obtain ⟨rfl, rfl⟩ := hxy
    rw [hb] at hn
    cases hn
  · exact hn

theorem query_board_open_pointwise {g g' : Game} (h : g.query_board = some g') :
    ∀ u v n, gget g.board u v = some (Cell.Open n) →
      gget g'.board u v = some (Cell.Open n) := by
  obtain ⟨-, -, -, -, -, b, hq, hb'⟩ := query_board_frame h
  intro u v n huv
  obtain ⟨hlen, hrows, hpt⟩ := queryRows_spec hq
  rw [hb']
  have huv' := huv
  unfold gget at huv'
  cases hrow : g.board[v]? with
  | none => rw [hrow] at huv'; cases huv'
  | some row =>
    rw [hrow] at huv'
    have hru : row[u]? = some (Cell.Open n) := huv'
    have hv : v < g.board.length := by
      rcases Nat.lt_or_ge v g.board.length with hv | hv
      · exact hv
      · rw [List.getElem?_eq_none_iff.mpr hv] at hrow
        cases hrow
    have hu : u < row.length := by
      rcases Nat.lt_or_ge u row.length with hu | hu
      · exact hu
      · rw [List.getElem?_eq_none_iff.mpr hu] at hru
        cases hru
    have hvb : v < b.length := by rw [hlen]; exact hv
    have hbv : b[v]? = some b[v] := List.getElem?_eq_getElem hvb
    obtain ⟨row', hrow', hlenr⟩ := hrows v b[v] hbv
    have hrr : row' = row := by
      rw [hrow] at hrow'
      exact (Option.some.inj hrow').symm
    rw [hrr] at hlenr
    have hub : u < (b[v]).length := by rw [hlenr]; exact hu
    have hbu : (b[v])[u]? = some (b[v])[u] := List.getElem?_eq_getElem hub
    have hgb : gget b u v = some (b[v])[u] := by
      unfold gget
      rw [hbv]
      exact hbu
    obtain ⟨c, hc, hqc⟩ := hpt u v (b[v])[u] hgb
    have hcn : c = Cell.Open n := by
      rw [huv] at hc
      exact (Option.some.inj hc).symm
    subst hcn
    unfold queryCell at hqc
    simp only [reduceCtorEq, if_false] at hqc
    rw [hgb]
    exact (Option.some.inj hqc) ▸ rfl

theorem run_open_stable : ∀ (fuel : Nat),
    (∀ g x y g' r, run fuel (.openT g x y) = .done g' r → ∀ u v n,
      gget g.board u v = some (Cell.Open n) → gget g'.board u v = some (Cell.Open n)) ∧
    (∀ g l g' r, run fuel (.neighT g l) = .done g' r → ∀ u v n,
      gget g.board u v = some (Cell.Open n) → gget g'.board u v = some (Cell.Open n)) := by
  intro fuel
  induction fuel with
  | zero => exact ⟨fun g x y g' r h => (nomatch h), fun g l g' r h => nomatch h⟩
  | succ fuel ih =>
    obtain ⟨ihOpen, ihNeigh⟩ := ih
    constructor
    · intro g x y g' r h
      simp only [run] at h
      split at h
      · cases h
        exact fun u v n hn => hn
      · have hbd : (if g.state = Core.GameState.New
            then { g with timer := g.timer.start } else g).board = g.board := by
          split <;> rfl
        rw [← hbd]
        revert h
        generalize (if g.state = Core.GameState.New
          then { g with timer := g.timer.start } else g) = g₀
        intro h
        split at h
        · cases h
          exact fun u v n hn => hn
        · split at h
          · cases h
          · cases h
            exact fun u v n hn => hn
          · cases h
            exact fun u v n hn => hn
          · rename_i hb
            split at h
            · cases h
            · cases h
            · rename_i rules info hrules
              split at h
              · split at h
                · split at h
                  · cases h
                  · cases h
                  · rename_i g₃ r₃ hrun
                    cases h
                    intro u v n hn
                    exact ihNeigh _ _ _ _ hrun u v n (gget_gset_open_stable hb _ hn)
                · cases h
                  intro u v n hn
                  exact gget_gset_open_stable hb _ hn
              · by_cases hm : info.cell = Core.Cell.Mine
                · rw [if_pos hm] at h
                  split at h
                  · cases h
                  · rename_i gq hq
                    cases h
                    intro u v n hn
                    exact query_board_open_pointwise hq u v n (gget_gset_open_stable hb _ hn)
                · rw [if_neg hm] at h
                  split at h
                  · cases h
                  · rename_i gq hq
                    cases h
                    intro u v n hn
                    exact query_board_open_pointwise hq u v n hn
          · cases h
    · intro g l g' r h
      match l with
      | [] =>
        simp only [run] at h
        cases h
        exact fun u v n hn => hn
      | (xn, yn) :: rest =>
        simp only [run] at h
        split at h
        · cases h
        · rename_i c hc
          split at h
          · split at h
            · cases h
            · cases h
            · rename_i g₁ e hrun₁
              cases h
              exact ihOpen _ _ _ _ _ hrun₁
            · rename_i g₁ u₁ hrun₁
              have h₁ := ihOpen _ _ _ _ _ hrun₁
              split at h
              · cases h
              · split at h
                · cases h
                  exact h₁
                · intro u v n hn
                  exact ihNeigh _ _ _ _ h u v n (h₁ u v n hn)
          · split at h
            · cases h
              exact fun u v n hn => hn
            · exact ihNeigh _ _ _ _ h

end Overlay

/-- C3: for every overlay game and probe coordinate, once the fuel bound exceeds ten
times the number of still-hidden display cells, the cascading auto-reveal of open /
open_neighbors terminates — the interpreter cannot exhaust its fuel — and on
completion every cell already marked Open n in the overlay still reads exactly Open n
(the cascade only ever probes cells it finds Hidden, so it never re-probes an open
cell and opens each cell at most once), while the number of hidden cells never
grows. -/
theorem C3_cascade_terminates_no_reopen (g : Overlay.Game) (x y fuel : Nat)
    (hfuel : 10 * Overlay.hiddenCount g < fuel) :
    Overlay.Game.probe fuel g x y ≠ .out ∧
    ∀ g' r, Overlay.Game.probe fuel g x y = .done g' r →
      Overlay.hiddenCount g' ≤ Overlay.hiddenCount g ∧
      ∀ u v n, gget g.board u v = some (Overlay.Cell.Open n) →
        gget g'.board u v = some (Overlay.Cell.Open n) := by
  constructor
  · exact (Overlay.run_no_out fuel).1 g x y hfuel
  · intro g' r h
    exact ⟨(Overlay.run_hidden_mono fuel).1 _ _ _ _ _ h,
           (Overlay.run_open_stable fuel).1 _ _ _ _ _ h⟩

theorem C3_witness :
    10 * Overlay.hiddenCount Overlay.Game.mkOv22 < 41 ∧
    (Overlay.Game.probe 41 Overlay.Game.mkOv22 0 0 ≠ .out ∧
     ∀ g' r, Overlay.Game.probe 41 Overlay.Game.mkOv22 0 0 = .done g' r →
       Overlay.hiddenCount g' ≤ Overlay.hiddenCount Overlay.Game.mkOv22 ∧
       ∀ u v n, gget Overlay.Game.mkOv22.board u v = some (Overlay.Cell.Open n) →
         gget g'.board u v = some (Overlay.Cell.Open n)) :=
  ⟨by decide, C3_cascade_terminates_no_reopen Overlay.Game.mkOv22 0 0 41 (by decide)⟩

/-- C6: the claim promises that over-flagging may drive the remaining-mine counter
negative and "is allowed, never an error or a panic", but mines_remaining is a usize:
on the reachable 2-by-1 one-mine game, flagging both cells takes the counter from 1 to
0 and the second decrement wraps to 2^64 - 1 (and would panic in a debug build)
instead of going to the signed -1 the spec describes. -/
theorem C6_flag_counter_wraps_at_zero :
    Overlay.Game.flag Overlay.Game.mkOv21 0 0 = .done Overlay.Game.mkOv21F (.ok ()) ∧
    Overlay.Game.mkOv21F.mines_remaining = 0 ∧
    gget Overlay.Game.mkOv21F.board 1 0 = some Overlay.Cell.Hidden ∧
    ∃ g₂, Overlay.Game.flag Overlay.Game.mkOv21F 1 0 = .done g₂ (.ok ()) ∧
      g₂.mines_remaining = 2 ^ 64 - 1 :=
  ⟨rfl, rfl, rfl, _, rfl, rfl⟩

/-- C7 counterexample: on the reachable 2-by-1 game, flag(0, 0) succeeds and leaves
the timer stopped; probe(0, 0) — whose target DisplayCell is Flag — is then rejected
as the claim says, but it does not leave everything unchanged: the game is still in
state New, so Game::open starts the elapsed-time tracker before inspecting the target
cell, flipping the running flag from false to true. -/
theorem C7_counterexample :
    Overlay.Game.flag Overlay.Game.mkOv21 0 0 = .done Overlay.Game.mkOv21F (.ok ()) ∧
    gget Overlay.Game.mkOv21F.board 0 0 = some Overlay.Cell.Flag ∧
    Overlay.Game.mkOv21F.timer.is_running = false ∧
    ∃ g', Overlay.Game.probe 1 Overlay.Game.mkOv21F 0 0 =
        .done g' (.error .cellFlagged) ∧ g'.timer.is_running = true :=
  ⟨rfl, rfl, rfl, _, rfl, rfl⟩

/-- C7: amended frame property. A probe whose in-bounds target DisplayCell is Flag or
Open(n) is rejected, and the resulting game is exactly the original except possibly
its timer: the display board, remaining-mine counter, rules engine and settings are
untouched, and the timer too is unchanged unless the game is still in state New, in
which case the rejected probe has already started it. -/
theorem C7_probe_rejection_frame (g : Overlay.Game) (x y fuel : Nat)
    (hin : x < g.width ∧ y < g.height)
    (hcell : gget g.board x y = some Overlay.Cell.Flag ∨
      ∃ n, gget g.board x y = some (Overlay.Cell.Open n)) :
    ∃ e, Overlay.Game.probe (fuel + 1) g x y =
      .done (if g.state = Core.GameState.New
             then { g with timer := g.timer.start } else g) (.error e) := by
  have hnn : ¬¬(x < g.width ∧ y < g.height) := not_not_intro hin
  by_cases hnew : g.state = Core.GameState.New
  · have hst : ({ g with timer := g.timer.start } : Overlay.Game).state = g.state := rfl
    have hLW : ¬(({ g with timer := g.timer.start } : Overlay.Game).state =
        Core.GameState.Lost ∨
        ({ g with timer := g.timer.start } : Overlay.Game).state =
        Core.GameState.Won) := by
      rw [hst, hnew]
      rintro (h1 | h1) <;> cases h1
    have hbd : gget ({ g with timer := g.timer.start } : Overlay.Game).board x y =
        gget g.board x y := rfl
    rcases hcell with hc | ⟨n, hc⟩
    · refine ⟨.cellFlagged, ?_⟩
      simp only [Overlay.Game.probe, Overlay.run]
      rw [if_neg hnn, if_pos hnew, if_neg hLW, hbd, hc]
    · refine ⟨.cellAlreadyOpen, ?_⟩
      simp only [Overlay.Game.probe, Overlay.run]
      rw [if_neg hnn, if_pos hnew, if_neg hLW, hbd, hc]
  · by_cases hLW : g.state = Core.GameState.Lost ∨ g.state = Core.GameState.Won
    · refine ⟨.gameOver, ?_⟩
      simp only [Overlay.Game.probe, Overlay.run]
      rw [if_neg hnn, if_neg hnew, if_pos hLW]
    · rcases hcell with hc | ⟨n, hc⟩
      · refine ⟨.cellFlagged, ?_⟩
        simp only [Overlay.Game.probe, Overlay.run]
        rw [if_neg hnn, if_neg hnew, if_neg hLW, hc]
      · refine ⟨.cellAlreadyOpen, ?_⟩
        simp only [Overlay.Game.probe, Overlay.run]
        rw [if_neg hnn, if_neg hnew, if_neg hLW, hc]

theorem C7_witness :
    (0 < Overlay.Game.mkOv21F.width ∧ 0 < Overlay.Game.mkOv21F.height) ∧
    ∃ e, Overlay.Game.probe 1 Overlay.Game.mkOv21F 0 0 =
      .done (if Overlay.Game.mkOv21F.state = Core.GameState.New
             then { Overlay.Game.mkOv21F with
                      timer := Overlay.Game.mkOv21F.timer.start }
             else Overlay.Game.mkOv21F) (.error e) :=
  ⟨⟨by decide, by decide⟩,
   C7_probe_rejection_frame Overlay.Game.mkOv21F 0 0 0 ⟨by decide, by decide⟩
     (Or.inl rfl)⟩

theorem run_neighT_skip (g : Overlay.Game) : ∀ (l₁ l₂ : List (Nat × Nat)) (K : Nat),
    (∀ p ∈ l₁, ∃ c, gget g.board p.1 p.2 = some c ∧
      c ≠ Overlay.Cell.Hidden ∧ c ≠ Overlay.Cell.TrippedMine) →
    Overlay.run (l₁.length + K) (.neighT g (l₁ ++ l₂)) = Overlay.run K (.neighT g l₂) := by
  intro l₁
  induction l₁ with
  | nil => intro l₂ K hskip; simp
  | cons p l₁ ih =>
    intro l₂ K hskip
    obtain ⟨xn, yn⟩ := p
    obtain ⟨c, hc, hH, hT⟩ := hskip (xn, yn) (List.mem_cons_self _ _)
    have hlen : ((xn, yn) :: l₁).length + K = (l₁.length + K) + 1 := by
      simp [Nat.add_right_comm]
    rw [hlen]
    simp only [List.cons_append, Overlay.run]
    split
    · rename_i hnone
      rw [hc] at hnone
      cases hnone
    · rename_i c' hc'
      have hcc : c' = c := by
        rw [hc] at hc'
        exact (Option.some.inj hc').symm
      subst hcc
      rw [if_neg hH, if_neg hT]
      exact ih l₂ K fun q hq => hskip q (List.mem_cons_of_mem _ hq)

theorem chord_runs_cascade (g : Overlay.Game) (x y m F : Nat)
    (hin : x < g.width ∧ y < g.height)
    (hcell : gget g.board x y = some (Overlay.Cell.Open m))
    (hplay : g.state = Core.GameState.Playing)
    (hm : m ≠ 0)
    (hflags : ((Overlay.neighboursList g.width g.height x y).filter fun p =>
        gget g.board p.1 p.2 = some Overlay.Cell.Flag).length = m) :
    Overlay.Game.chord F g x y =
      Overlay.run F (.neighT g (Overlay.neighboursList g.width g.height x y)) := by
  simp only [Overlay.Game.chord]
  rw [if_neg (not_not_intro hin)]
  split
  · rename_i hnone
    rw [hcell] at hnone
    cases hnone
  · rename_i heq
    rw [hcell] at heq
    simp at heq
  · rename_i heq
    rw [hcell] at heq
    simp at heq
  · rename_i mines heq
    rw [hcell] at heq
    have hmm : m = mines := by
      injection Option.some.inj heq with h2
    subst hmm
    rw [if_neg (not_not_intro hplay), if_neg hm, if_pos hflags]
  · rename_i hne heq
    rw [hcell] at heq
    exact (hne m (Option.some.inj heq).symm).elim

/-- C9 counterexample: on the 2-by-2, 1-mine game the mine sits at (0, 0); after
probing (1, 1) (Open 1) and mis-flagging the non-mine (0, 1), chord(1, 1) sees one
neighbouring flag, opens the real mine at (0, 0), and the game is lost with the cell
marked TrippedMine and full endgame reconciliation — exactly the final state a direct
probe of (0, 0) produces — but the returned outcomes differ: the chord returns
Err "Auto-tripped on mine." while the direct probe returns Ok, refuting the claim
that the operation's returned outcome is the same. -/
theorem C9_counterexample :
    Overlay.Game.probe 10 Overlay.Game.mkOv22 1 1 =
      .done Overlay.Game.mkOv22a (.ok ()) ∧
    Overlay.Game.flag Overlay.Game.mkOv22a 0 1 =
      .done Overlay.Game.mkOv22b (.ok ()) ∧
    gget Overlay.Game.mkOv22b.rules.mines 0 0 = some true ∧
    gget Overlay.Game.mkOv22b.board 0 1 = some Overlay.Cell.Flag ∧
    gget Overlay.Game.mkOv22b.rules.mines 0 1 = some false ∧
    Overlay.Game.chord 6 Overlay.Game.mkOv22b 1 1 =
      .done Overlay.Game.mkOv22trip (.error .autoTripped) ∧
    Overlay.Game.probe 5 Overlay.Game.mkOv22b 0 0 =
      .done Overlay.Game.mkOv22trip (.ok ()) ∧
    Overlay.Game.mkOv22trip.state = Core.GameState.Lost ∧
    gget Overlay.Game.mkOv22trip.board 0 0 = some Overlay.Cell.TrippedMine ∧
    (Except.error Overlay.Msg.autoTripped ≠ (Except.ok () : Except Overlay.Msg Unit)) :=
  ⟨rfl, rfl, rfl, rfl, rfl, rfl, rfl, rfl, rfl, fun h => by cases h⟩

/-- C9: amended. In a Playing state, chording an Open(m) cell (m > 0) whose
neighbouring flag count equals m walks the neighbour list; if every neighbour before
(xm, ym) is skipped (already open or flagged, not a tripped mine) and (xm, ym) is
Hidden, the chord delegates to the very same open call a direct probe of (xm, ym)
performs — so when that probe detonates a mine (ends with the cell TrippedMine after
reconciliation, final state g₁), the chord ends in exactly the same final state g₁,
but returns Err "Auto-tripped on mine." where the direct probe returned Ok. -/
theorem C9_misflagged_chord_detonates (g g₁ : Overlay.Game) (x y m fuel : Nat)
    (l₁ l₂ : List (Nat × Nat)) (xm ym : Nat)
    (hin : x < g.width ∧ y < g.height)
    (hcell : gget g.board x y = some (Overlay.Cell.Open m))
    (hplay : g.state = Core.GameState.Playing)
    (hm : m ≠ 0)
    (hflags : ((Overlay.neighboursList g.width g.height x y).filter fun p =>
        gget g.board p.1 p.2 = some Overlay.Cell.Flag).length = m)
    (hsplit : Overlay.neighboursList g.width g.height x y = l₁ ++ (xm, ym) :: l₂)
    (hskip : ∀ p ∈ l₁, ∃ c, gget g.board p.1 p.2 = some c ∧
      c ≠ Overlay.Cell.Hidden ∧ c ≠ Overlay.Cell.TrippedMine)
    (hhid : gget g.board xm ym = some Overlay.Cell.Hidden)
    (hprobe : Overlay.Game.probe fuel g xm ym = .done g₁ (.ok ()))
    (htrip : gget g₁.board xm ym = some Overlay.Cell.TrippedMine) :
    Overlay.Game.chord (l₁.length + (fuel + 1)) g x y =
      .done g₁ (.error .autoTripped) := by
  have hprobe' : Overlay.run fuel (.openT g xm ym) = .done g₁ (.ok ()) := hprobe
  rw [chord_runs_cascade g x y m _ hin hcell hplay hm hflags, hsplit,
    run_neighT_skip g l₁ ((xm, ym) :: l₂) (fuel + 1) hskip]
  simp only [Overlay.run]
  split
  · rename_i hnone
    rw [hhid] at hnone
    cases hnone
  · rename_i c hc
    have hcc : c = Overlay.Cell.Hidden := by
      rw [hhid] at hc
      exact (Option.some.inj hc).symm
    subst hcc
    rw [if_pos rfl]
    split
    · rename_i hrun
      rw [hrun] at hprobe'
      cases hprobe'
    · rename_i hrun
      rw [hrun] at hprobe'
      cases hprobe'
    · rename_i g₂ e hrun
      rw [hrun] at hprobe'
      cases hprobe'
    · rename_i g₂ u hrun
      rw [hrun] at hprobe'
      cases hprobe' 
      split
      · rename_i hnone
        rw [htrip] at hnone
        cases hnone
      · rename_i c₁ hc₁
        have hcc₁ : c₁ = Overlay.Cell.TrippedMine := by
          rw [htrip] at hc₁
          exact (Option.some.inj hc₁).symm
        subst hcc₁
        rw [if_pos rfl]

theorem C9_witness :
    gget Overlay.Game.mkOv22b.board 0 0 = some Overlay.Cell.Hidden ∧
    Overlay.Game.probe 5 Overlay.Game.mkOv22b 0 0 =
      .done Overlay.Game.mkOv22trip (.ok ()) ∧
    Overlay.Game.chord 6 Overlay.Game.mkOv22b 1 1 =
      .done Overlay.Game.mkOv22trip (.error .autoTripped) :=
  ⟨rfl, rfl,
   C9_misflagged_chord_detonates Overlay.Game.mkOv22b Overlay.Game.mkOv22trip 1 1 1 5
     [] [(1, 0), (0, 1)] 0 0 ⟨by decide, by decide⟩ rfl rfl (by decide) (by decide) rfl
     (fun p hp => absurd hp (List.not_mem_nil p)) rfl rfl rfl⟩

theorem Inv_timer {g : Overlay.Game} (h : Overlay.Inv g) (t : Overlay.Timer) :
    Overlay.Inv { g with timer := t } := by
  refine ⟨h.rw_eq, h.rh_eq, h.rm_eq, h.board_dims, h.valid_w, h.valid_h, h.valid_m,
    h.valid_mlt, h.goodR, fun hp => ?_⟩
  have hP := h.playing hp
  exact ⟨hP.mines_dims, hP.opened_dims, hP.nbrs_eq, hP.hidden_unopened, hP.opened_no_mine⟩

theorem goodR_dummy : Overlay.GoodR Core.dummy_randomizer := by
  intro w h m fx fy hw hh hm hmlt hfx hfy
  have hlen : (List.replicate m true ++ List.replicate (w * h - m) false).length = w * h := by
    simp
    omega
  constructor
  · show gridDims (Core.toGrid w h _) w h
    exact toGrid_dims w h _ hlen
  · show gcountP (fun b => b) (Core.toGrid w h _) = m
    rw [countTrue_toGrid w h _ hlen]
    simp [countTrue, List.countP_append, countP_replicate]

theorem queryRows_dims {g : Overlay.Game} {b : List (List Overlay.Cell)} {w h : Nat}
    (hq : Overlay.queryRows g = some b) (hd : gridDims g.board w h) :
    gridDims b w h := by
  obtain ⟨hlen, hrows, -⟩ := Overlay.queryRows_spec hq
  obtain ⟨hbl, hbrows⟩ := hd
  refine ⟨by rw [hlen, hbl], fun row hrow => ?_⟩
  obtain ⟨i, hlt, hEq⟩ := List.getElem_of_mem hrow
  have hb : b[i]? = some row := by rw [List.getElem?_eq_getElem hlt, hEq]
  obtain ⟨rd, hrd, hlr⟩ := hrows i row hb
  obtain ⟨hlt2, hEq2⟩ := List.getElem?_eq_some_iff.mp hrd
  have hmem : rd ∈ g.board := hEq2 ▸ List.getElem_mem hlt2
  rw [hlr, hbrows rd hmem]

theorem openPlaying_ok {r : Core.Game} {x y : Nat} {m : Bool} {n : Nat}
    (hst : r.state = Core.GameState.Playing)
    (ho : gget r.opened x y = some false)
    (hm : gget r.mines x y = some m)
    (hn : gget r.neighbours x y = some n) :
    ∃ r' info, Core.Game.openPlaying r x y = some (r', Except.ok info) ∧
      r'.opened = gset r.opened x y true ∧
      r'.mines = r.mines ∧ r'.neighbours = r.neighbours ∧
      r'.width = r.width ∧ r'.height = r.height ∧
      r'.num_mines = r.num_mines ∧ r'.randomizer = r.randomizer ∧
      info.state = r'.state ∧
      (m = true → r'.state = Core.GameState.Lost ∧ info.cell = Core.Cell.Mine) ∧
      (m = false → (r'.state = Core.GameState.Playing ∨ r'.state = Core.GameState.Won) ∧
        info.cell = Core.Cell.Clear n) := by
  cases m with
  | true =>
    refine ⟨{ r with opened := gset r.opened x y true, state := .Lost },
      ⟨Core.GameState.Lost, Core.Cell.Mine⟩, ?_, rfl, rfl, rfl, rfl, rfl, rfl, rfl, rfl,
      fun _ => ⟨rfl, rfl⟩, fun hf => by cases hf⟩
    unfold Core.Game.openPlaying
    rw [ho]
    simp only [Option.some_bind]
    rw [if_neg (by simp : ¬(false = true))]
    rw [hm]
    simp only [Option.some_bind]
    simp
  | false =>
    refine ⟨if r.clear_remaining - 1 = 0
        then
          { r with
            opened := gset r.opened x y true,
            clear_remaining := r.clear_remaining - 1,
            state := .Won }
        else
          { r with
            opened := gset r.opened x y true,
            clear_remaining := r.clear_remaining - 1 },
      ⟨(if r.clear_remaining - 1 = 0
        then
          ({ r with
             opened := gset r.opened x y true,
             clear_remaining := r.clear_remaining - 1,
             state := Core.GameState.Won } : Core.Game)
        else
          { r with
            opened := gset r.opened x y true,
            clear_remaining := r.clear_remaining - 1 }).state,
       Core.Cell.Clear n⟩, ?_, ?_, ?_, ?_, ?_, ?_, ?_, ?_, ?_, ?_, ?_⟩
    · unfold Core.Game.openPlaying
      rw [ho]
      simp only [Option.some_bind]
      rw [if_neg (by simp : ¬(false = true))]
      rw [hm]
      simp only [Option.some_bind]
      rw [if_neg (by simp : ¬(false = true))]
      rw [apply_ite Core.Game.neighbours]
      simp only [ite_self]
      rw [hn]
      simp only [Option.map_some']
    · by_cases hc : r.clear_remaining - 1 = 0 <;> simp [hc]
    · by_cases hc : r.clear_remaining - 1 = 0 <;> simp [hc]
    · by_cases hc : r.clear_remaining - 1 = 0 <;> simp [hc]
    · by_cases hc : r.clear_remaining - 1 = 0 <;> simp [hc]
    · by_cases hc : r.clear_remaining - 1 = 0 <;> simp [hc]
    · by_cases hc : r.clear_remaining - 1 = 0 <;> simp [hc]
    · by_cases hc : r.clear_remaining - 1 = 0 <;> simp [hc]
    · rfl
    · intro ht
      cases ht
    · intro hf
      refine ⟨?_, rfl⟩
      by_cases hc : r.clear_remaining - 1 = 0
      · rw [if_pos hc]
        exact Or.inr rfl
      · rw [if_neg hc]
        exact Or.inl hst

theorem openCell_playing_eq {r : Core.Game} {x y : Nat}
    (hx : x < r.width) (hy : y < r.height) (hst : r.state = Core.GameState.Playing) :
    Core.Game.openCell r x y = Core.Game.openPlaying r x y := by
  unfold Core.Game.openCell
  rw [if_neg (by omega), hst]

theorem openCell_new_ok {g : Core.Game} {x y : Nat}
    (hst : g.state = Core.GameState.New) (hx : x < g.width) (hy : y < g.height)
    (hdims : gridDims (g.randomizer g.width g.height g.num_mines x y) g.width g.height) :
    ∃ r' info m, Core.Game.openCell g x y = some (r', Except.ok info) ∧
      r'.mines = g.randomizer g.width g.height g.num_mines x y ∧
      r'.opened = gset (List.replicate g.height (List.replicate g.width false)) x y true ∧
      r'.neighbours = Core.calculate_neighbours g.width g.height r'.mines ∧
      r'.width = g.width ∧ r'.height = g.height ∧ r'.num_mines = g.num_mines ∧
      r'.randomizer = g.randomizer ∧
      info.state = r'.state ∧
      gget r'.mines x y = some m ∧
      (m = true → r'.state = Core.GameState.Lost ∧ info.cell = Core.Cell.Mine) ∧
      (m = false → (r'.state = Core.GameState.Playing ∨ r'.state = Core.GameState.Won) ∧
        ∃ k, info.cell = Core.Cell.Clear k) := by
  obtain ⟨m, hm⟩ := gget_isSome_of_dims hdims hx hy
  obtain ⟨n, hn⟩ := gget_isSome_of_dims (gridDims_calculate_neighbours g.width g.height
    (g.randomizer g.width g.height g.num_mines x y)) hx hy
  have hopen : Core.Game.openCell g x y =
      Core.Game.openPlaying (Core.Game.generate_board { g with state := .Playing } x y) x y := by
    unfold Core.Game.openCell
    rw [if_neg (by omega), hst]
  obtain ⟨r', info, heq, hop, hmi, hnb, hwd, hht, hnm, hrd, his, hmt, hmf⟩ :=
    openPlaying_ok (r := Core.Game.generate_board { g with state := .Playing } x y)
      rfl (gget_replicate hx hy) hm hn
  refine ⟨r', info, m, ?_, ?_, ?_, ?_, ?_, ?_, ?_, ?_, his, ?_, hmt,
    fun hf => ⟨(hmf hf).1, n, (hmf hf).2⟩⟩
  · rw [hopen]
    exact heq
  · exact hmi
  · exact hop
  · rw [hmi]
    exact hnb
  · exact hwd
  · exact hht
  · exact hnm
  · exact hrd
  · rw [hmi]
    exact hm

theorem Inv_playing_step {g₀ : Overlay.Game} {rules : Core.Game} {x y : Nat}
    {c : Overlay.Cell} {k : Nat}
    (hInv₀ : Overlay.Inv g₀)
    (k1 : rules.width = g₀.rules.width) (k2 : rules.height = g₀.rules.height)
    (k3 : rules.num_mines = g₀.rules.num_mines)
    (k4 : rules.randomizer = g₀.rules.randomizer)
    (k6 : gridDims rules.mines g₀.width g₀.height)
    (k7 : gridDims rules.opened g₀.width g₀.height)
    (k8 : rules.neighbours = Core.calculate_neighbours rules.width rules.height rules.mines)
    (k9 : ∀ u v, u < g₀.width → v < g₀.height → ¬(x = u ∧ y = v) →
      (gget g₀.board u v = some Overlay.Cell.Hidden ∨
       gget g₀.board u v = some Overlay.Cell.Flag) →
      gget rules.opened u v = some false)
    (k10 : ∀ u v, u < g₀.width → v < g₀.height → ¬(x = u ∧ y = v) →
      gget rules.opened u v = some true → gget rules.mines u v = some false)
    (hmxy : gget rules.mines x y = some false)
    (hb : gget g₀.board x y = some Overlay.Cell.Hidden)
    (hc : c = Overlay.Cell.Open k) :
    Overlay.Inv { rules := rules, timer := g₀.timer,
                  board := gset g₀.board x y c,
                  settings := g₀.settings, mines_remaining := g₀.mines_remaining } := by
  refine ⟨?_, ?_, ?_, ?_, ?_, ?_, ?_, ?_, ?_, fun _ => ?_⟩
  · show rules.width = g₀.width
    rw [k1]
    exact hInv₀.rw_eq
  · show rules.height = g₀.height
    rw [k2]
    exact hInv₀.rh_eq
  · show rules.num_mines = g₀.mines
    rw [k3]
    exact hInv₀.rm_eq
  · show gridDims (gset g₀.board x y c) g₀.width g₀.height
    exact gridDims_gset hInv₀.board_dims x y c
  · show 1 ≤ g₀.width
    exact hInv₀.valid_w
  · show 1 ≤ g₀.height
    exact hInv₀.valid_h
  · show 1 ≤ g₀.mines
    exact hInv₀.valid_m
  · show g₀.mines < g₀.width * g₀.height
    exact hInv₀.valid_mlt
  · show Overlay.GoodR rules.randomizer
    rw [k4]
    exact hInv₀.goodR
  · refine ⟨?_, ?_, ?_, ?_, ?_⟩
    · show gridDims rules.mines g₀.width g₀.height
      exact k6
    · show gridDims rules.opened g₀.width g₀.height
      exact k7
    · show rules.neighbours =
        Core.calculate_neighbours rules.width rules.height rules.mines
      exact k8
    · show ∀ u v, u < g₀.width → v < g₀.height →
        (gget (gset g₀.board x y c) u v = some Overlay.Cell.Hidden ∨
         gget (gset g₀.board x y c) u v = some Overlay.Cell.Flag) →
        gget rules.opened u v = some false
      intro u v hu hv hcase
      by_cases hne : x = u ∧ y = v
      · obtain ⟨rfl, rfl⟩ := hne
        rw [gget_gset, if_pos ⟨rfl, rfl⟩, hb, hc] at hcase
        simp at hcase
      · rw [gget_gset, if_neg hne] at hcase
        exact k9 u v hu hv hne hcase
    · show ∀ u v, u < g₀.width → v < g₀.height →
        gget rules.opened u v = some true → gget rules.mines u v = some false
      intro u v hu hv hop
      by_cases hne : x = u ∧ y = v
      · obtain ⟨rfl, rfl⟩ := hne
        exact hmxy
      · exact k10 u v hu hv hne hop

theorem Inv_terminal_step {g₀ : Overlay.Game} {rules : Core.Game}
    (hInv₀ : Overlay.Inv g₀)
    (k1 : rules.width = g₀.rules.width) (k2 : rules.height = g₀.rules.height)
    (k3 : rules.num_mines = g₀.rules.num_mines)
    (k4 : rules.randomizer = g₀.rules.randomizer)
    (hnp : rules.state ≠ Core.GameState.Playing)
    {gq : Overlay.Game}
    (hgr : gq.rules = rules) (hgs : gq.settings = g₀.settings)
    (hbd : gridDims gq.board g₀.width g₀.height) (t : Overlay.Timer) :
    Overlay.Inv { gq with timer := t } := by
  refine ⟨?_, ?_, ?_, ?_, ?_, ?_, ?_, ?_, ?_, fun hp => ?_⟩
  · show gq.rules.width = gq.settings.difficulty.width
    rw [hgr, hgs, k1]
    exact hInv₀.rw_eq
  · show gq.rules.height = gq.settings.difficulty.height
    rw [hgr, hgs, k2]
    exact hInv₀.rh_eq
  · show gq.rules.num_mines = gq.settings.difficulty.mines
    rw [hgr, hgs, k3]
    exact hInv₀.rm_eq
  · show gridDims gq.board gq.settings.difficulty.width gq.settings.difficulty.height
    rw [hgs]
    exact hbd
  · show 1 ≤ gq.settings.difficulty.width
    rw [hgs]
    exact hInv₀.valid_w
  · show 1 ≤ gq.settings.difficulty.height
    rw [hgs]
    exact hInv₀.valid_h
  · show 1 ≤ gq.settings.difficulty.mines
    rw [hgs]
    exact hInv₀.valid_m
  · show gq.settings.difficulty.mines <
      gq.settings.difficulty.width * gq.settings.difficulty.height
    rw [hgs]
    exact hInv₀.valid_mlt
  · show Overlay.GoodR gq.rules.randomizer
    rw [hgr, k4]
    exact hInv₀.goodR
  · have hp2 : gq.rules.state = Core.GameState.Playing := hp
    rw [hgr] at hp2
    exact absurd hp2 hnp

theorem openCell_step_key {g₀ : Overlay.Game} {x y : Nat} {rules : Core.Game}
    {info : Core.OpenInfo}
    (hInv₀ : Overlay.Inv g₀)
    (hx : x < g₀.width) (hy : y < g₀.height)
    (hb : gget g₀.board x y = some Overlay.Cell.Hidden)
    (hnLW : ¬(g₀.state = Core.GameState.Lost ∨ g₀.state = Core.GameState.Won))
    (hrules : Core.Game.openCell g₀.rules x y = some (rules, Except.ok info)) :
    rules.width = g₀.rules.width ∧ rules.height = g₀.rules.height ∧
    rules.num_mines = g₀.rules.num_mines ∧ rules.randomizer = g₀.rules.randomizer ∧
    info.state = rules.state ∧
    gridDims rules.mines g₀.width g₀.height ∧
    gridDims rules.opened g₀.width g₀.height ∧
    rules.neighbours = Core.calculate_neighbours rules.width rules.height rules.mines ∧
    (∀ u v, u < g₀.width → v < g₀.height → ¬(x = u ∧ y = v) →
      (gget g₀.board u v = some Overlay.Cell.Hidden ∨
       gget g₀.board u v = some Overlay.Cell.Flag) →
      gget rules.opened u v = some false) ∧
    (∀ u v, u < g₀.width → v < g₀.height → ¬(x = u ∧ y = v) →
      gget rules.opened u v = some true → gget rules.mines u v = some false) ∧
    (info.state = Core.GameState.Playing →
      gget rules.mines x y = some false ∧ ∃ k, info.cell = Core.Cell.Clear k) := by
  have hx' : x < g₀.rules.width := by rw [hInv₀.rw_eq]; exact hx
  have hy' : y < g₀.rules.height := by rw [hInv₀.rh_eq]; exact hy
  cases hstate : g₀.state with
  | Lost => exact absurd (Or.inl hstate) hnLW
  | Won => exact absurd (Or.inr hstate) hnLW
  | New =>
    have hdims : gridDims
        (g₀.rules.randomizer g₀.rules.width g₀.rules.height g₀.rules.num_mines x y)
        g₀.rules.width g₀.rules.height := by
      refine (hInv₀.goodR g₀.rules.width g₀.rules.height g₀.rules.num_mines x y
        ?_ ?_ ?_ ?_ hx' hy').1
      · rw [hInv₀.rw_eq]
        exact hInv₀.valid_w
      · rw [hInv₀.rh_eq]
        exact hInv₀.valid_h
      · rw [hInv₀.rm_eq]
        exact hInv₀.valid_m
      · rw [hInv₀.rm_eq, hInv₀.rw_eq, hInv₀.rh_eq]
        exact hInv₀.valid_mlt
    obtain ⟨r', info₀, m, heq, hmi, hop, hnb, hwd, hht, hnm, hrd, his, hgm, hmt, hmf⟩ :=
      openCell_new_ok (g := g₀.rules) hstate hx' hy' hdims
    rw [heq] at hrules
    simp only [Option.some.injEq, Prod.mk.injEq, Except.ok.injEq] at hrules
    obtain ⟨hr1, hr2⟩ := hrules
    subst hr1
    subst hr2
    refine ⟨hwd, hht, hnm, hrd, his, ?_, ?_, ?_, ?_, ?_, ?_⟩
    · rw [hmi]
      rw [← hInv₀.rw_eq, ← hInv₀.rh_eq]
      exact hdims
    · rw [hop]
      rw [← hInv₀.rw_eq, ← hInv₀.rh_eq]
      exact gridDims_gset (gridDims_replicate _ _ _) x y true
    · rw [hwd, hht]
      exact hnb
    · intro u v hu hv hne hcase
      rw [hop, gget_gset, if_neg hne]
      have hu' : u < g₀.rules.width := by rw [hInv₀.rw_eq]; exact hu
      have hv' : v < g₀.rules.height := by rw [hInv₀.rh_eq]; exact hv
      exact gget_replicate hu' hv'
    · intro u v hu hv hne hop2
      rw [hop, gget_gset, if_neg hne] at hop2
      have hu' : u < g₀.rules.width := by rw [hInv₀.rw_eq]; exact hu
      have hv' : v < g₀.rules.height := by rw [hInv₀.rh_eq]; exact hv
      rw [gget_replicate hu' hv'] at hop2
      simp at hop2
    · intro hip
      cases m with
      | true =>
        obtain ⟨hlost, -⟩ := hmt rfl
        rw [his, hlost] at hip
        cases hip
      | false => exact ⟨hgm, hmf rfl |>.2⟩
  | Playing =>
    have hP := hInv₀.playing hstate
    have ho := hP.hidden_unopened x y hx hy (Or.inl hb)
    obtain ⟨m, hm⟩ := gget_isSome_of_dims hP.mines_dims hx hy
    have hndims : gridDims g₀.rules.neighbours g₀.rules.width g₀.rules.height := by
      rw [hP.nbrs_eq]
      exact gridDims_calculate_neighbours _ _ _
    obtain ⟨n, hn⟩ := gget_isSome_of_dims hndims hx' hy'
    rw [openCell_playing_eq hx' hy' hstate] at hrules
    obtain ⟨r', info₀, heq, hop, hmi, hnb, hwd, hht, hnm, hrd, his, hmt, hmf⟩ :=
      openPlaying_ok hstate ho hm hn
    rw [heq] at hrules
    simp only [Option.some.injEq, Prod.mk.injEq, Except.ok.injEq] at hrules
    obtain ⟨hr1, hr2⟩ := hrules
    subst hr1
    subst hr2
    refine ⟨hwd, hht, hnm, hrd, his, ?_, ?_, ?_, ?_, ?_, ?_⟩
    · rw [hmi]
      exact hP.mines_dims
    · rw [hop]
      exact gridDims_gset hP.opened_dims x y true
    · rw [hwd, hht, hmi, hnb]
      exact hP.nbrs_eq
    · intro u v hu hv hne hcase
      rw [hop, gget_gset, if_neg hne]
      exact hP.hidden_unopened u v hu hv hcase
    · intro u v hu hv hne hop2
      rw [hop, gget_gset, if_neg hne] at hop2
      rw [hmi]
      exact hP.opened_no_mine u v hu hv hop2
    · intro hip
      cases m with
      | true =>
        obtain ⟨hlost, -⟩ := hmt rfl
        rw [his, hlost] at hip
        cases hip
      | false =>
        refine ⟨?_, n, (hmf rfl).2⟩
        rw [hmi]
        exact hm

theorem run_preserves_Inv : ∀ (fuel : Nat),
    (∀ g x y g' r, Overlay.Inv g → Overlay.run fuel (.openT g x y) = .done g' r →
      Overlay.Inv g') ∧
    (∀ g l g' r, Overlay.Inv g → Overlay.run fuel (.neighT g l) = .done g' r →
      Overlay.Inv g') := by
  intro fuel
  induction fuel with
  | zero => exact ⟨fun g x y g' r _ h => (nomatch h), fun g l g' r _ h => nomatch h⟩
  | succ fuel ih =>
    obtain ⟨ihOpen, ihNeigh⟩ := ih
    constructor
    · intro g x y g' r hInv h
      simp only [Overlay.run] at h
      split at h
      · cases h
        exact hInv
      · rename_i hbnd
        have hxy := not_not.mp hbnd
        have hInv₀ : Overlay.Inv (if g.state = Core.GameState.New
            then { g with timer := g.timer.start } else g) := by
          split
          · exact Inv_timer hInv _
          · exact hInv
        have hw₀ : (if g.state = Core.GameState.New
            then { g with timer := g.timer.start } else g).width = g.width := by
          split <;> rfl
        have hh₀ : (if g.state = Core.GameState.New
            then { g with timer := g.timer.start } else g).height = g.height := by
          split <;> rfl
        revert hInv₀ hw₀ hh₀ h
        generalize (if g.state = Core.GameState.New
          then { g with timer := g.timer.start } else g) = g₀
        intro h hInv₀ hw₀ hh₀
        split at h
        · cases h
          exact hInv₀
        · rename_i hnLW
          split at h
          · cases h
          · cases h
            exact hInv₀
          · cases h
            exact hInv₀
          · rename_i hb
            split at h
            · cases h
            · cases h
            · rename_i rules info hrules
              have hx₀ : x < g₀.width := by rw [hw₀]; exact hxy.1
              have hy₀ : y < g₀.height := by rw [hh₀]; exact hxy.2
              obtain ⟨k1, k2, k3, k4, k5, k6, k7, k8, k9, k10, k11⟩ :=
                openCell_step_key hInv₀ hx₀ hy₀ hb hnLW hrules
              split at h
              · rename_i hip
                obtain ⟨hmxy, kk, hck⟩ := k11 hip
                have hInv₂ := Inv_playing_step hInv₀ k1 k2 k3 k4 k6 k7 k8 k9 k10 hmxy hb
                  (show Overlay.cellFrom info.cell = Overlay.Cell.Open kk by rw [hck]; rfl)
                split at h
                · split at h
                  · cases h
                  · cases h
                  · rename_i g₃ r₃ hrun
                    cases h
                    exact ihNeigh _ _ _ _ hInv₂ hrun
                · cases h
                  exact hInv₂
              · rename_i hnp
                have hnps : rules.state ≠ Core.GameState.Playing :=
                  fun hr => hnp (k5.trans hr)
                by_cases hmine : info.cell = Core.Cell.Mine
                · rw [if_pos hmine] at h
                  split at h
                  · cases h
                  · rename_i gq hq
                    cases h
                    obtain ⟨-, hgr, -, hgs, -, b, hqr, hgb⟩ :=
                      Overlay.query_board_frame hq
                    refine Inv_terminal_step hInv₀ k1 k2 k3 k4 hnps hgr hgs ?_ _
                    rw [hgb]
                    exact queryRows_dims hqr (gridDims_gset hInv₀.board_dims x y _)
                · rw [if_neg hmine] at h
                  split at h
                  · cases h
                  · rename_i gq hq
                    cases h
                    obtain ⟨-, hgr, -, hgs, -, b, hqr, hgb⟩ :=
                      Overlay.query_board_frame hq
                    refine Inv_terminal_step hInv₀ k1 k2 k3 k4 hnps hgr hgs ?_ _
                    rw [hgb]
                    exact queryRows_dims hqr hInv₀.board_dims
          · cases h
    · intro g l g' r hInv h
      match l with
      | [] =>
        simp only [Overlay.run] at h
        cases h
        exact hInv
      | (xn, yn) :: rest =>
        simp only [Overlay.run] at h
        split at h
        · cases h
        · rename_i c hc
          split at h
          · split at h
            · cases h
            · cases h
            · rename_i g₁ e hrun₁
              cases h
              exact ihOpen _ _ _ _ _ hInv hrun₁
            · rename_i g₁ u₁ hrun₁
              have hInv₁ := ihOpen _ _ _ _ _ hInv hrun₁
              split at h
              · cases h
              · split at h
                · cases h
                  exact hInv₁
                · exact ihNeigh _ _ _ _ hInv₁ h
          · split at h
            · cases h
              exact hInv
            · exact ihNeigh _ _ _ _ hInv h

theorem Inv_flag_step {g : Overlay.Game} {x y : Nat} {c₀ c : Overlay.Cell} {nm : Nat}
    (hInv : Overlay.Inv g)
    (hb : gget g.board x y = some c₀)
    (hc₀ : c₀ = Overlay.Cell.Hidden ∨ c₀ = Overlay.Cell.Flag)
    (hc : c = Overlay.Cell.Hidden ∨ c = Overlay.Cell.Flag) :
    Overlay.Inv { g with board := gset g.board x y c, mines_remaining := nm } := by
  refine ⟨hInv.rw_eq, hInv.rh_eq, hInv.rm_eq, ?_, hInv.valid_w, hInv.valid_h,
    hInv.valid_m, hInv.valid_mlt, hInv.goodR, fun hp => ?_⟩
  · show gridDims (gset g.board x y c) g.width g.height
    exact gridDims_gset hInv.board_dims x y c
  · have hP := hInv.playing hp
    refine ⟨hP.mines_dims, hP.opened_dims, hP.nbrs_eq, ?_, hP.opened_no_mine⟩
    show ∀ u v, u < g.width → v < g.height →
      (gget (gset g.board x y c) u v = some Overlay.Cell.Hidden ∨
       gget (gset g.board x y c) u v = some Overlay.Cell.Flag) →
      gget g.rules.opened u v = some false
    intro u v hu hv hcase
    by_cases hne : x = u ∧ y = v
    · obtain ⟨rfl, rfl⟩ := hne
      refine hP.hidden_unopened x y hu hv ?_
      rcases hc₀ with h1 | h1
      · exact Or.inl (by rw [hb, h1])
      · exact Or.inr (by rw [hb, h1])
    · rw [gget_gset, if_neg hne] at hcase
      exact hP.hidden_unopened u v hu hv hcase

theorem Inv_fresh {rules : Core.Game} {s : Overlay.Settings} {t : Overlay.Timer} {nm : Nat}
    (hw : rules.width = s.difficulty.width) (hh : rules.height = s.difficulty.height)
    (hm : rules.num_mines = s.difficulty.mines)
    (hst : rules.state = Core.GameState.New)
    (hgr : Overlay.GoodR rules.randomizer)
    (hv : s.Valid) :
    Overlay.Inv { rules := rules, timer := t,
                  board := List.replicate s.difficulty.height
                    (List.replicate s.difficulty.width Overlay.Cell.Hidden),
                  settings := s, mines_remaining := nm } := by
  obtain ⟨hv1, hv2, hv3, hv4⟩ := hv
  refine ⟨hw, hh, hm, ?_, hv1, hv2, hv3, hv4, hgr, fun hp => ?_⟩
  · show gridDims (List.replicate s.difficulty.height
      (List.replicate s.difficulty.width Overlay.Cell.Hidden))
      s.difficulty.width s.difficulty.height
    exact gridDims_replicate _ _ _
  · have hp2 : rules.state = Core.GameState.Playing := hp
    rw [hst] at hp2
    cases hp2

theorem Inv_settings_same {g : Overlay.Game} {s : Overlay.Settings}
    (hInv : Overlay.Inv g) (hsame : g.settings.difficulty = s.difficulty) :
    Overlay.Inv { g with settings := s } := by
  refine ⟨?_, ?_, ?_, ?_, ?_, ?_, ?_, ?_, hInv.goodR, fun hp => ?_⟩
  · show g.rules.width = s.difficulty.width
    rw [← hsame]
    exact hInv.rw_eq
  · show g.rules.height = s.difficulty.height
    rw [← hsame]
    exact hInv.rh_eq
  · show g.rules.num_mines = s.difficulty.mines
    rw [← hsame]
    exact hInv.rm_eq
  · show gridDims g.board s.difficulty.width s.difficulty.height
    rw [← hsame]
    exact hInv.board_dims
  · show 1 ≤ s.difficulty.width
    rw [← hsame]
    exact hInv.valid_w
  · show 1 ≤ s.difficulty.height
    rw [← hsame]
    exact hInv.valid_h
  · show 1 ≤ s.difficulty.mines
    rw [← hsame]
    exact hInv.valid_m
  · show s.difficulty.mines < s.difficulty.width * s.difficulty.height
    rw [← hsame]
    exact hInv.valid_mlt
  · have hP := hInv.playing hp
    refine ⟨?_, ?_, hP.nbrs_eq, ?_, ?_⟩
    · show gridDims g.rules.mines s.difficulty.width s.difficulty.height
      rw [← hsame]
      exact hP.mines_dims
    · show gridDims g.rules.opened s.difficulty.width s.difficulty.height
      rw [← hsame]
      exact hP.opened_dims
    · show ∀ u v, u < s.difficulty.width → v < s.difficulty.height →
        (gget g.board u v = some Overlay.Cell.Hidden ∨
         gget g.board u v = some Overlay.Cell.Flag) →
        gget g.rules.opened u v = some false
      intro u v hu hv hcase
      rw [← hsame] at hu hv
      exact hP.hidden_unopened u v hu hv hcase
    · show ∀ u v, u < s.difficulty.width → v < s.difficulty.height →
        gget g.rules.opened u v = some true → gget g.rules.mines u v = some false
      intro u v hu hv hop
      rw [← hsame] at hu hv
      exact hP.opened_no_mine u v hu hv hop

theorem chord_preserves_Inv (fuel : Nat) {g : Overlay.Game} {x y : Nat}
    {g' : Overlay.Game} {r : Except Overlay.Msg Unit}
    (hInv : Overlay.Inv g) (h : Overlay.Game.chord fuel g x y = .done g' r) :
    Overlay.Inv g' := by
  simp only [Overlay.Game.chord] at h
  split at h
  · cases h
    exact hInv
  · split at h
    · cases h
    · cases h
      exact hInv
    · cases h
      exact hInv
    · split at h
      · cases h
        exact hInv
      · split at h
        · cases h
          exact hInv
        · split at h
          · exact (run_preserves_Inv fuel).2 _ _ _ _ hInv h
          · cases h
            exact hInv
    · cases h
      exact hInv

theorem flag_preserves_Inv {g : Overlay.Game} {x y : Nat}
    {g' : Overlay.Game} {r : Except Overlay.Msg Unit}
    (hInv : Overlay.Inv g) (h : Overlay.Game.flag g x y = .done g' r) :
    Overlay.Inv g' := by
  simp only [Overlay.Game.flag] at h
  split at h
  · cases h
    exact hInv
  · split at h
    · cases h
    · rename_i hb
      cases h
      exact Inv_flag_step hInv hb (Or.inl rfl) (Or.inr rfl)
    · rename_i hb
      cases h
      exact Inv_flag_step hInv hb (Or.inr rfl) (Or.inl rfl)
    · cases h
      exact hInv

theorem action_preserves_Inv (fuel : Nat) {g : Overlay.Game} {a : Overlay.Action}
    {g' : Overlay.Game} {r : Except Overlay.Msg Unit}
    (hInv : Overlay.Inv g) (hav : Overlay.ActionValid a)
    (h : Overlay.Game.action fuel g a = .done g' r) : Overlay.Inv g' := by
  cases a with
  | Quit =>
    cases h
    exact hInv
  | Open x y => exact (run_preserves_Inv fuel).1 _ _ _ _ _ hInv h
  | Flag x y => exact flag_preserves_Inv hInv h
  | Chord x y => exact chord_preserves_Inv fuel hInv h
  | Reset =>
    cases h
    exact Inv_fresh hInv.rw_eq hInv.rh_eq hInv.rm_eq rfl hInv.goodR
      ⟨hInv.valid_w, hInv.valid_h, hInv.valid_m, hInv.valid_mlt⟩
  | ChangeSettings s =>
    simp only [Overlay.Game.action, Overlay.Game.change_settings, Overlay.Game.reset] at h
    split at h
    · cases h
      exact Inv_fresh rfl rfl rfl rfl hInv.goodR hav
    · rename_i hsame
      cases h
      exact Inv_settings_same hInv (not_not.mp hsame)
  | OpenOrChord x y =>
    simp only [Overlay.Game.action, Overlay.Game.open_or_chord] at h
    split at h
    · cases h
    · exact chord_preserves_Inv fuel hInv h
    · exact (run_preserves_Inv fuel).1 _ _ _ _ _ hInv h

theorem new_valid_some {s : Overlay.Settings} {R : Core.Randomizer} (hv : s.Valid) :
    Overlay.Game.new s R = some
      { rules := { state := .New, width := s.difficulty.width,
                   height := s.difficulty.height, num_mines := s.difficulty.mines,
                   randomizer := R, clear_remaining := 0,
                   mines := [], opened := [], neighbours := [] },
        timer := Overlay.Timer.new,
        board := List.replicate s.difficulty.height
          (List.replicate s.difficulty.width Overlay.Cell.Hidden),
        settings := s, mines_remaining := s.difficulty.mines } := by
  obtain ⟨hv1, hv2, hv3, hv4⟩ := hv
  unfold Overlay.Game.new Overlay.GameRules.new Core.Game.new_with
  rw [if_neg (by omega), if_neg (by omega)]
  rfl

theorem reachable_Inv {g : Overlay.Game} (h : Overlay.Reachable g) : Overlay.Inv g := by
  induction h with
  | base s R g hv hR hnew =>
    rw [new_valid_some hv] at hnew
    obtain rfl : _ = g := Option.some.inj hnew
    exact Inv_fresh rfl rfl rfl rfl hR hv
  | step g a fuel g' r hreach hav hact ih => exact action_preserves_Inv fuel ih hav hact

/-- C10: in every game state reachable from a fresh game through the public operations
(probe, flag, chord, reset, change-settings, quit), whenever the overlay probe's own
checks pass — the coordinate is in bounds, the coarse state is neither Won nor Lost,
and the target DisplayCell is Hidden — the delegated rules-engine open call returns
Some with an Ok payload, so the overlay's panic branch for a rules-engine error
(OutOfBounds, AlreadyOpen or GameOver surfacing inside probe) is unreachable. -/
theorem C10_probe_delegation_success (g : Overlay.Game) (x y : Nat)
    (hreach : Overlay.Reachable g)
    (hx : x < g.width) (hy : y < g.height)
    (hnW : g.state ≠ Core.GameState.Won) (hnL : g.state ≠ Core.GameState.Lost)
    (hb : gget g.board x y = some Overlay.Cell.Hidden) :
    ∃ rules info, Core.Game.openCell g.rules x y = some (rules, Except.ok info) := by
  have hInv := reachable_Inv hreach
  have hx' : x < g.rules.width := by rw [hInv.rw_eq]; exact hx
  have hy' : y < g.rules.height := by rw [hInv.rh_eq]; exact hy
  cases hstate : g.state with
  | Won => exact absurd hstate hnW
  | Lost => exact absurd hstate hnL
  | New =>
    have hdims : gridDims
        (g.rules.randomizer g.rules.width g.rules.height g.rules.num_mines x y)
        g.rules.width g.rules.height := by
      refine (hInv.goodR g.rules.width g.rules.height g.rules.num_mines x y
        ?_ ?_ ?_ ?_ hx' hy').1
      · rw [hInv.rw_eq]
        exact hInv.valid_w
      · rw [hInv.rh_eq]
        exact hInv.valid_h
      · rw [hInv.rm_eq]
        exact hInv.valid_m
      · rw [hInv.rm_eq, hInv.rw_eq, hInv.rh_eq]
        exact hInv.valid_mlt
    obtain ⟨r', info, m, heq, -⟩ := openCell_new_ok (g := g.rules) hstate hx' hy' hdims
    exact ⟨r', info, heq⟩
  | Playing =>
    have hP := hInv.playing hstate
    have ho := hP.hidden_unopened x y hx hy (Or.inl hb)
    obtain ⟨m, hm⟩ := gget_isSome_of_dims hP.mines_dims hx hy
    have hndims : gridDims g.rules.neighbours g.rules.width g.rules.height := by
      rw [hP.nbrs_eq]
      exact gridDims_calculate_neighbours _ _ _
    obtain ⟨n, hn⟩ := gget_isSome_of_dims hndims hx' hy'
    obtain ⟨r', info, heq, -⟩ := openPlaying_ok hstate ho hm hn
    refine ⟨r', info, ?_⟩
    rw [openCell_playing_eq hx' hy' hstate]
    exact heq

theorem C10_witness :
    Overlay.Reachable Overlay.Game.mkOv22 ∧
    (0 < Overlay.Game.mkOv22.width ∧ 0 < Overlay.Game.mkOv22.height) ∧
    gget Overlay.Game.mkOv22.board 0 0 = some Overlay.Cell.Hidden ∧
    ∃ rules info, Core.Game.openCell Overlay.Game.mkOv22.rules 0 0 =
      some (rules, Except.ok info) := by
  have hreach : Overlay.Reachable Overlay.Game.mkOv22 :=
    Overlay.Reachable.base ⟨.Custom ⟨2, 2, 1⟩⟩ Core.dummy_randomizer _
      ⟨by decide, by decide, by decide, by decide⟩ goodR_dummy rfl
  exact ⟨hreach, ⟨by decide, by decide⟩, rfl,
    C10_probe_delegation_success Overlay.Game.mkOv22 0 0 hreach
      (by decide) (by decide) (by decide) (by decide) rfl⟩
